import Mathlib

/-!
# Verification of the `heretic.py` subdomain crawler

This file gives a shallow embedding of `src/heretic.py` (class
`SubdomainCrawler`) together with the parts of the Python standard
library it calls: `urllib.parse.urlparse`, `urljoin`, `urlunparse`
(modelled on CPython 3.11.6, the interpreter the repository runs
under here) and `os.path.normpath` (POSIX flavour).

Strings are modelled as `List Char`.  A Python `ValueError` raised by
`urlparse` (the "Invalid IPv6 URL" check for unbalanced brackets in
the authority) is modelled with `Except Unit`.  Two checks of CPython
3.11 that cannot realistically fire for the crawler's inputs are not
modelled and are noted where they would occur: the `ipaddress`-based
validation of bracketed IPv6 hosts, and the NFKC-normalisation check
`_checknetloc` for non-ASCII authorities (our `_checknetloc` accepts
every authority, as the real one does for all ASCII input).

The crawler itself (`crawl`) is embedded with explicit state
(`visited`, `seen`) plus an instrumentation field `fetched` recording
every invocation of the Link Source, and a fuel parameter bounding
the recursion depth (Python's call stack).  Exhausted fuel returns
the current state unchanged; all safety theorems below are proved
for every fuel value.
-/

namespace Heretic

/-- Strings are modelled as lists of characters. -/
abbrev Str := List Char

instance {α β : Type} [DecidableEq α] [DecidableEq β] : DecidableEq (Except α β) :=
  fun x y =>
    match x, y with
    | .error a, .error b =>
      if h : a = b then .isTrue (by rw [h]) else .isFalse (by simp [h])
    | .ok a, .ok b =>
      if h : a = b then .isTrue (by rw [h]) else .isFalse (by simp [h])
    | .error _, .ok _ => .isFalse (by simp)
    | .ok _, .error _ => .isFalse (by simp)

/-- ASCII lower-casing of one character (`str.lower` restricted to the
ASCII letters, which is all the scheme parser ever lower-cases). -/
def asciiLower (c : Char) : Char :=
  if 'A' ≤ c ∧ c ≤ 'Z' then Char.ofNat (c.toNat + 32) else c

/-- `c.isascii() and c.isalpha()` for a Python character. -/
def isAsciiAlpha (c : Char) : Bool :=
  ('a' ≤ c ∧ c ≤ 'z') ∨ ('A' ≤ c ∧ c ≤ 'Z')

/-- Membership of `urllib.parse.scheme_chars`. -/
def isSchemeChar (c : Char) : Bool :=
  isAsciiAlpha c ∨ ('0' ≤ c ∧ c ≤ '9') ∨ c = '+' ∨ c = '-' ∨ c = '.'

/-- Membership of `_WHATWG_C0_CONTROL_OR_SPACE` (code points 0x00–0x20). -/
def isC0OrSpace (c : Char) : Bool :=
  c.toNat ≤ 32

/-- Membership of `_UNSAFE_URL_BYTES_TO_REMOVE` (tab, CR, LF). -/
def isUnsafeByte (c : Char) : Bool :=
  c = '\t' ∨ c = '\r' ∨ c = '\n'

/-- `url.lstrip(_WHATWG_C0_CONTROL_OR_SPACE)` followed by removal of the
unsafe bytes, as done at the top of `urlsplit` for the url argument. -/
def cleanUrl (s : Str) : Str :=
  (s.dropWhile isC0OrSpace).filter (fun c => ¬ isUnsafeByte c)

/-- `scheme.strip(_WHATWG_C0_CONTROL_OR_SPACE)` followed by removal of
the unsafe bytes, as done in `urlsplit` for the default scheme. -/
def cleanScheme (s : Str) : Str :=
  ((((s.dropWhile isC0OrSpace).reverse).dropWhile isC0OrSpace).reverse).filter
    (fun c => ¬ isUnsafeByte c)

/-- `urllib.parse.uses_relative` (CPython 3.11). -/
def uses_relative : List Str :=
  ["", "ftp", "http", "gopher", "nntp", "imap", "wais", "file", "https",
   "shttp", "mms", "prospero", "rtsp", "rtsps", "rtspu", "sftp", "svn",
   "svn+ssh", "ws", "wss"].map String.data

/-- `urllib.parse.uses_netloc` (CPython 3.11). -/
def uses_netloc : List Str :=
  ["", "ftp", "http", "gopher", "nntp", "telnet", "imap", "wais", "file",
   "mms", "https", "shttp", "snews", "prospero", "rtsp", "rtsps", "rtspu",
   "rsync", "svn", "svn+ssh", "sftp", "nfs", "git", "git+ssh", "ws",
   "wss"].map String.data

/-- `urllib.parse.uses_params` (CPython 3.11). -/
def uses_params : List Str :=
  ["", "ftp", "hdl", "prospero", "http", "imap", "https", "shttp", "rtsp",
   "rtsps", "rtspu", "sip", "sips", "mms", "sftp", "tel"].map String.data

/-- Result of `urllib.parse.urlsplit`: the 5-tuple
`(scheme, netloc, path, query, fragment)`. -/
structure SplitResult where
  scheme : Str
  netloc : Str
  path : Str
  query : Str
  fragment : Str
deriving DecidableEq, Repr

/-- Result of `urllib.parse.urlparse`: the 6-tuple
`(scheme, netloc, path, params, query, fragment)`. -/
structure ParseResult where
  scheme : Str
  netloc : Str
  path : Str
  params : Str
  query : Str
  fragment : Str
deriving DecidableEq, Repr

/-- Is `c` one of the netloc delimiters `/`, `?`, `#`
(used by `_splitnetloc`)? -/
def isNetlocDelim (c : Char) : Bool :=
  c = '/' ∨ c = '?' ∨ c = '#'

/-- `url.split(sep, 1)` when `sep` occurs, otherwise `(url, '')` —
the way `urlsplit` detaches the fragment and the query. -/
def splitOnFirst (sep : Char) (u : Str) : Str × Str :=
  if sep ∈ u then
    (u.takeWhile (fun c => c ≠ sep), (u.dropWhile (fun c => c ≠ sep)).tail)
  else (u, [])

/-- The scheme detachment step of `urlsplit`: `some (scheme, rest)` when
`url` has a scheme prefix (a `:` after one or more scheme characters the
first of which is an ASCII letter), `none` otherwise. -/
def schemeSplit (url : Str) : Option (Str × Str) :=
  let pre := url.takeWhile (fun c => c ≠ ':')
  if pre.length < url.length ∧ 0 < pre.length ∧
      isAsciiAlpha (pre.headD ' ') ∧ pre.all isSchemeChar then
    some (pre.map asciiLower, url.drop (pre.length + 1))
  else none

/-- `_splitnetloc(url, 2)` applied to `url.drop 2`:
`(netloc, rest)` split at the first of `/`, `?`, `#`. -/
def netlocSplit (u : Str) : Str × Str :=
  (u.takeWhile (fun c => !(isNetlocDelim c)), u.dropWhile (fun c => !(isNetlocDelim c)))

/-- The component computation of `urlsplit` (total).  The
`ValueError` check sits between the netloc extraction and the
fragment/query splits in the Python source; since those later splits do
not depend on it, the components can be computed first and the check
applied afterwards (`urlsplit` below), which is equivalent. -/
def urlsplitRaw (default_scheme : Str) (url0 : Str) : SplitResult :=
  let url := cleanUrl url0
  let su :=
    match schemeSplit url with
    | some su => su
    | none => (cleanScheme default_scheme, url)
  let scheme := su.1
  let url1 := su.2
  let nr :=
    if url1.take 2 = ['/', '/'] then netlocSplit (url1.drop 2)
    else ([], url1)
  let netloc := nr.1
  let url2 := nr.2
  let uf := splitOnFirst '#' url2
  let qf := splitOnFirst '?' uf.1
  ⟨scheme, netloc, qf.1, qf.2, uf.2⟩

/-- The condition under which `urlsplit` raises
`ValueError("Invalid IPv6 URL")`: a `[` without `]` in the authority or
vice versa. -/
def bracketMismatch (n : Str) : Prop :=
  ('[' ∈ n ∧ ']' ∉ n) ∨ (']' ∈ n ∧ '[' ∉ n)

instance (n : Str) : Decidable (bracketMismatch n) := by
  unfold bracketMismatch; infer_instance

/-- `urllib.parse.urlsplit(url, scheme=default)` with
`allow_fragments=True`.  `Except.error ()` models the raised
`ValueError`.  Two further CPython 3.11 error paths are not modelled:
`_check_bracketed_host` (which validates the host between a balanced
`[`…`]` pair as an IPv6/IPvFuture address) and `_checknetloc` (which
raises for a non-ASCII authority whose NFKC normalisation introduces
one of `/?#@:`; it accepts every ASCII authority unconditionally).
Both are off whenever the authority is all-ASCII and contains neither
`[` nor `]`, so on inputs whose characters are ASCII and bracket-free
this function is extensionally equal to CPython's `urlsplit`;
statements that assert the absence of a raise are made only on that
fragment. -/
def urlsplit (default_scheme : Str) (url0 : Str) : Except Unit SplitResult :=
  let t := urlsplitRaw default_scheme url0
  if bracketMismatch t.netloc then .error () else .ok t

/-- The part of `u` strictly after its last `/` (all of `u` when there
is no `/`). -/
def afterLastSlash (u : Str) : Str :=
  (u.reverse.takeWhile (fun c => c ≠ '/')).reverse

/-- `urllib.parse._splitparams`. -/
def splitparams (u : Str) : Str × Str :=
  if '/' ∈ u then
    if ';' ∈ afterLastSlash u then
      (u.take (u.length - ((afterLastSlash u).dropWhile (fun c => c ≠ ';')).length),
       ((afterLastSlash u).dropWhile (fun c => c ≠ ';')).tail)
    else (u, [])
  else
    if ';' ∈ u then
      (u.takeWhile (fun c => c ≠ ';'), (u.dropWhile (fun c => c ≠ ';')).tail)
    else (u.dropLast, u)

/-- The params-detaching step of `urlparse` on top of `urlsplit`'s
result. -/
def paramsSplit (s : SplitResult) : ParseResult :=
  if s.scheme ∈ uses_params ∧ ';' ∈ s.path then
    let pp := splitparams s.path
    ⟨s.scheme, s.netloc, pp.1, pp.2, s.query, s.fragment⟩
  else
    ⟨s.scheme, s.netloc, s.path, [], s.query, s.fragment⟩

/-- The component computation of `urlparse` (total). -/
def urlparseRaw (default_scheme : Str) (url : Str) : ParseResult :=
  paramsSplit (urlsplitRaw default_scheme url)

/-- `urllib.parse.urlparse(url, scheme=default)`. -/
def urlparseWith (default_scheme : Str) (url : Str) : Except Unit ParseResult :=
  (urlsplit default_scheme url).map paramsSplit

/-- `urllib.parse.urlparse(url)` (default scheme `''`). -/
def urlparse (url : Str) : Except Unit ParseResult :=
  urlparseWith [] url

/-- `urllib.parse.urlunsplit` (CPython 3.11). -/
def urlunsplit (scheme netloc path query fragment : Str) : Str :=
  let u1 :=
    if netloc ≠ [] ∨ (scheme ≠ [] ∧ scheme ∈ uses_netloc ∧ path.take 2 ≠ ['/', '/']) then
      let u' := if path ≠ [] ∧ path.take 1 ≠ ['/'] then '/' :: path else path
      '/' :: '/' :: (netloc ++ u')
    else path
  let u2 := if scheme ≠ [] then scheme ++ ':' :: u1 else u1
  let u3 := if query ≠ [] then u2 ++ '?' :: query else u2
  if fragment ≠ [] then u3 ++ '#' :: fragment else u3

/-- `urllib.parse.urlunparse` on a 6-tuple; also
`ParseResult.geturl()`. -/
def urlunparse (t : ParseResult) : Str :=
  let u := if t.params ≠ [] then t.path ++ ';' :: t.params else t.path
  urlunsplit t.scheme t.netloc u t.query t.fragment

/-- `path.split('/')` as a list of `/`-free pieces; never empty. -/
def splitSlash : Str → List Str
  | [] => [[]]
  | c :: rest =>
    if c = '/' then [] :: splitSlash rest
    else
      match splitSlash rest with
      | [] => [[c]]
      | p :: ps => (c :: p) :: ps

/-- `'/'.join` of a list of pieces. -/
def joinSlash : List Str → Str
  | [] => []
  | [p] => p
  | p :: ps => p ++ '/' :: joinSlash ps

/-- The number of initial slashes `os.path.normpath` preserves:
2 for a path starting with exactly two slashes, 1 for any other
absolute path, 0 otherwise. -/
def initialSlashes (path : Str) : Nat :=
  if path.take 1 = ['/'] then
    if path.take 2 = ['/', '/'] ∧ path.take 3 ≠ ['/', '/', '/'] then 2 else 1
  else 0

/-- One step of `normpath`'s component loop.  The accumulator is kept
in reverse order, so Python's `new_comps.append`/`new_comps.pop` become
cons/tail; `List.tail [] = []` matches the guarded pop. -/
def normStep (slashes : Nat) (acc : List Str) (comp : Str) : List Str :=
  if comp = [] ∨ comp = ['.'] then acc
  else if comp ≠ ['.', '.'] ∨ (slashes = 0 ∧ acc = []) ∨
      (acc ≠ [] ∧ acc.headD [] = ['.', '.']) then comp :: acc
  else acc.tail

/-- `os.path.normpath` (POSIX). -/
def normpath (path : Str) : Str :=
  if path = [] then ['.']
  else
    let k := initialSlashes path
    let newComps := ((splitSlash path).foldl (normStep k) []).reverse
    let p := List.replicate k '/' ++ joinSlash newComps
    if p = [] then ['.'] else p

/-- One step of `urljoin`'s segment loop; accumulator reversed, so
`append`/`pop` (with `IndexError` ignored) become cons/tail. -/
def joinStep (acc : List Str) (seg : Str) : List Str :=
  if seg = ['.', '.'] then acc.tail
  else if seg = ['.'] then acc
  else seg :: acc

/-- `segments[1:-1] = filter(None, segments[1:-1])`: drop empty pieces,
keeping the first and last elements in place. -/
def filterMiddle : List Str → List Str
  | [] => []
  | [a] => [a]
  | a :: rest => a :: ((rest.dropLast.filter (fun s => s ≠ [])) ++ [rest.getLastD []])

/-- The pure core of `urljoin` once both parses have succeeded:
`b` is `urlparse(base, '')`, `t` is `urlparse(url, b.scheme)`, and
`url` is the (cleaned-by-nothing) original second argument. -/
def urljoinCore (b t : ParseResult) (url : Str) : Str :=
  if t.scheme ≠ b.scheme ∨ t.scheme ∉ uses_relative then url
  else
    let netloc :=
      if t.scheme ∈ uses_netloc then
        (if t.netloc ≠ [] then t.netloc else b.netloc)
      else t.netloc
    if t.scheme ∈ uses_netloc ∧ t.netloc ≠ [] then
      urlunparse ⟨t.scheme, t.netloc, t.path, t.params, t.query, t.fragment⟩
    else if t.path = [] ∧ t.params = [] then
      urlunparse ⟨t.scheme, netloc, b.path, b.params,
        (if t.query = [] then b.query else t.query), t.fragment⟩
    else
      let base_parts0 := splitSlash b.path
      let base_parts :=
        if base_parts0.getLastD [] ≠ [] then base_parts0.dropLast else base_parts0
      let segments :=
        if t.path.take 1 = ['/'] then splitSlash t.path
        else filterMiddle (base_parts ++ splitSlash t.path)
      let rp0 := (segments.foldl joinStep []).reverse
      let rp :=
        if segments.getLastD [] = ['.'] ∨ segments.getLastD [] = ['.', '.'] then
          rp0 ++ [[]]
        else rp0
      let p := joinSlash rp
      urlunparse ⟨t.scheme, netloc, (if p = [] then ['/'] else p),
        t.params, t.query, t.fragment⟩

/-- `urllib.parse.urljoin(base, url)` (CPython 3.11). -/
def urljoin (base url : Str) : Except Unit Str :=
  if base = [] then .ok url
  else if url = [] then .ok base
  else
    match urlparseWith [] base with
    | .error e => .error e
    | .ok b =>
      match urlparseWith b.scheme url with
      | .error e => .error e
      | .ok t => .ok (urljoinCore b t url)

/-! ## The `SubdomainCrawler` methods -/

/-- `SubdomainCrawler.__resolve_dot_segments`:
`urlparse(url)._replace(path=os.path.normpath(parsed.path)).geturl()`. -/
def resolve_dot_segments (url : Str) : Except Unit Str :=
  (urlparse url).map fun t =>
    urlunparse ⟨t.scheme, t.netloc, normpath t.path, t.params, t.query, t.fragment⟩

/-- `SubdomainCrawler.__normalize_link(current_url, link)` for a crawler
whose `base_url` is `base`. -/
def normalize_link (base current_url link : Str) : Except Unit Str :=
  if "http".data.isPrefixOf link then .ok link
  else if "/".data.isPrefixOf link then urljoin base link
  else urljoin current_url link

/-- `SubdomainCrawler.__absolute_link(current_url, path)`. -/
def absolute_link (base current_url path : Str) : Except Unit Str :=
  match normalize_link base current_url path with
  | .error e => .error e
  | .ok normalized => resolve_dot_segments normalized

/-- `SubdomainCrawler.__is_current_domain(parsed_link)`:
`parsed_link.netloc == urlparse(self.base_url).netloc`.  The embedded
version is explicit about the `urlparse(self.base_url)` call, which can
itself raise. -/
def is_current_domain (base : Str) (parsed_link : ParseResult) : Except Unit Bool :=
  (urlparse base).map fun pb => parsed_link.netloc = pb.netloc

/-- `os.path.basename` (POSIX): everything after the last `/`. -/
def basename (p : Str) : Str :=
  afterLastSlash p

/-- `SubdomainCrawler.__is_crawlable(full_link, parsed_link)` against the
current `seen` set:
`full_link not in seen and (parsed.path.endswith('.html') or '.' not in basename(parsed.path))`. -/
def is_crawlable (seen : List Str) (full_link : Str) (parsed_link : ParseResult) : Bool :=
  full_link ∉ seen ∧
    (".html".data.isSuffixOf parsed_link.path ∨ '.' ∉ basename parsed_link.path)

/-! ## The traversal engine

The crawler's mutable instance state.  `visited` and `seen` model the
two Python sets (as lists with set-style insertion); `fetched` is pure
instrumentation recording each invocation of the Link Source
(`__get_http_from_website`), in order, so that the no-refetch claims
can be stated. -/

structure CrawlState where
  visited : List Str
  seen : List Str
  fetched : List Str
deriving DecidableEq, Repr

/-- `set.add`: insertion without duplication. -/
def setAdd (x : Str) (l : List Str) : List Str :=
  if x ∈ l then l else x :: l

/-- The body of `crawl`'s `for link in available_links` loop for one
link.  `visit` is the recursive `self.crawl`; the `Bool` is `false`
when an uncaught `ValueError` escapes (aborting the whole crawl), in
which case the state at the raise point is returned. -/
def processLink (base : Str) (visit : CrawlState → Str → CrawlState × Bool)
    (current_url : Str) (s : CrawlState) (link : Str) : CrawlState × Bool :=
  let crawlable_path := link.takeWhile (fun c => c ≠ '#')
  match absolute_link base current_url crawlable_path with
  | .error _ => (s, false)
  | .ok full_link =>
    match urlparse full_link with
    | .error _ => (s, false)
    | .ok parsed_link =>
      match is_current_domain base parsed_link with
      | .error _ => (s, false)
      | .ok sameDomain =>
        if ¬ sameDomain then
          ({ s with seen := setAdd full_link s.seen }, true)
        else if is_crawlable s.seen full_link parsed_link then
          visit { s with seen := setAdd full_link s.seen } full_link
        else
          ({ s with seen := setAdd full_link s.seen }, true)

/-- The `for link in available_links` loop, aborting on an exception. -/
def processLinks (base : Str) (visit : CrawlState → Str → CrawlState × Bool)
    (current_url : Str) : CrawlState → List Str → CrawlState × Bool
  | s, [] => (s, true)
  | s, link :: rest =>
    match processLink base visit current_url s link with
    | (s', true) => processLinks base visit current_url s' rest
    | (s', false) => (s', false)

/-- `SubdomainCrawler.crawl(url)` for a crawler with base URL `base`,
where `links` is the Link Source (the hrefs `__get_http_from_website`
returns for each URL).  `fuel` bounds the recursion depth (Python's
call stack); when it runs out the call returns its state unchanged,
which only truncates the traversal. -/
def crawlVisit (links : Str → List Str) (base : Str) :
    Nat → CrawlState → Str → CrawlState × Bool
  | 0, s, _ => (s, true)
  | fuel + 1, s, url =>
    if url ∈ s.visited then (s, true)
    else
      let s1 : CrawlState :=
        { s with visited := setAdd url s.visited }
      let s2 : CrawlState :=
        { s1 with fetched := s1.fetched ++ [url] }
      processLinks base (crawlVisit links base fuel) url s2 (links url)

/-- A whole crawl run: `SubdomainCrawler(base).crawl()` starting from
empty `visited`/`seen`. -/
def crawlRun (links : Str → List Str) (base : Str) (fuel : Nat) : CrawlState × Bool :=
  crawlVisit links base fuel ⟨[], [], []⟩ base

/-! ## The Link Source (`__get_http_from_website`)

One attempt of the retry loop is modelled by its outcome: the list of
href values appended to `links` during the attempt (in order) and
whether the attempt completed (`true`) or ended in an exception that
was swallowed (`false`).  An attempt that fails during extraction can
therefore already have appended some hrefs, exactly as in the Python
code, where `links` lives outside the `try`. -/

def getHttpGo (attempts : Nat → List Str × Bool) : Nat → Nat → List Str → List Str
  | 0, _, acc => acc
  | rem + 1, i, acc =>
    let a := attempts i
    if a.2 then acc ++ a.1 else getHttpGo attempts rem (i + 1) (acc ++ a.1)

/-- `SubdomainCrawler.__get_http_from_website(url)`: up to 3 attempts,
returning on the first completed one, accumulating into the one shared
`links` list. -/
def get_http_from_website (attempts : Nat → List Str × Bool) : List Str :=
  getHttpGo attempts 3 0 []

/-- The no-refetch invariant of the traversal: the Link Source log has
no duplicates, and every fetched URL is recorded as visited. -/
def FetchInv (s : CrawlState) : Prop :=
  s.fetched.Nodup ∧ ∀ x ∈ s.fetched, x ∈ s.visited

/-- The link graph of the spec's end-to-end scenario: the seed page
`https://base.com/` links to five hrefs and every other page is
linkless. -/
def scenarioLinks (u : Str) : List Str :=
  if u = "https://base.com/".data then
    ["/a.html".data, "b".data, "https://other.com/".data, "img.png".data,
     "./a.html#frag".data]
  else []

/-- A segment that `normpath`'s loop can keep: nonempty, not `.`, and
slash-free. -/
def goodSeg (s : Str) : Prop :=
  s ≠ [] ∧ s ≠ ['.'] ∧ '/' ∉ s

/-- Invariant of the (reversed) accumulator of `normpath`'s loop:
all segments good, no `..` at all for an absolute path, and for a
relative path the `..` segments form a suffix of the reversed
accumulator (i.e. sit at the bottom of the stack). -/
def accOk (k : Nat) (acc : List Str) : Prop :=
  (∀ s ∈ acc, goodSeg s) ∧
  (k = 0 → ∃ fr m, acc = fr ++ List.replicate m ['.', '.'] ∧ ['.', '.'] ∉ fr) ∧
  (k ≠ 0 → ['.', '.'] ∉ acc)

/-- The shape of every `normpath` output: the literal `.`, a run of
slashes, or `k` slashes followed by good segments with `..` only as
allowed for the value of `k`. -/
def NormalOut (k : Nat) (q : Str) : Prop :=
  (k = 0 ∧ q = ['.']) ∨
  (k ≠ 0 ∧ q = List.replicate k '/') ∨
  (∃ nc, nc ≠ [] ∧ (∀ s ∈ nc, goodSeg s) ∧
    (k = 0 → ∃ m rest, nc = List.replicate m ['.', '.'] ++ rest ∧ ['.', '.'] ∉ rest) ∧
    (k ≠ 0 → ['.', '.'] ∉ nc) ∧
    q = List.replicate k '/' ++ joinSlash nc)

/-! ## List lemmas -/

theorem mem_takeWhile {α : Type} {p : α → Bool} {l : List α} {x : α}
    (h : x ∈ l.takeWhile p) : x ∈ l := by
  induction l with
  | nil => simp at h
  | cons a l ih =>
    rw [List.takeWhile_cons] at h
    by_cases hp : p a
    · simp only [hp, if_true, List.mem_cons] at h
      rcases h with h | h
      · exact h ▸ List.mem_cons_self a l
      · exact List.mem_cons_of_mem a (ih h)
    · simp [hp] at h

theorem mem_dropWhile {α : Type} {p : α → Bool} {l : List α} {x : α}
    (h : x ∈ l.dropWhile p) : x ∈ l := by
  induction l with
  | nil => simp at h
  | cons a l ih =>
    rw [List.dropWhile_cons] at h
    by_cases hp : p a
    · simp only [hp, if_true] at h
      exact List.mem_cons_of_mem a (ih h)
    · simpa [hp] using h

theorem mem_tail {α : Type} {l : List α} {x : α} (h : x ∈ l.tail) : x ∈ l := by
  cases l with
  | nil => simp at h
  | cons a l => exact List.mem_cons_of_mem a h

theorem mem_dropLast {α : Type} {l : List α} {x : α} (h : x ∈ l.dropLast) : x ∈ l := by
  induction l with
  | nil => simp at h
  | cons a l ih =>
    cases l with
    | nil => simp at h
    | cons b l' =>
      rw [List.dropLast_cons₂, List.mem_cons] at h
      rcases h with h | h
      · exact h ▸ List.mem_cons_self a _
      · exact List.mem_cons_of_mem a (ih h)

theorem takeWhile_append_all {α : Type} {p : α → Bool} {a b : List α}
    (h : ∀ x ∈ a, p x) : (a ++ b).takeWhile p = a ++ b.takeWhile p := by
  induction a with
  | nil => simp
  | cons y a ih =>
    have hy : p y := h y (List.mem_cons_self y a)
    simp only [List.cons_append, List.takeWhile_cons, hy, if_true]
    rw [ih (fun x hx => h x (List.mem_cons_of_mem y hx))]

theorem dropWhile_append_all {α : Type} {p : α → Bool} {a b : List α}
    (h : ∀ x ∈ a, p x) : (a ++ b).dropWhile p = b.dropWhile p := by
  induction a with
  | nil => simp
  | cons y a ih =>
    have hy : p y := h y (List.mem_cons_self y a)
    simp only [List.cons_append, List.dropWhile_cons, hy, if_true]
    exact ih (fun x hx => h x (List.mem_cons_of_mem y hx))

theorem takeWhile_eq_self_of_all {α : Type} {p : α → Bool} {a : List α}
    (h : ∀ x ∈ a, p x) : a.takeWhile p = a := by
  have := takeWhile_append_all (b := []) h
  simpa using this

theorem takeWhile_append_stop {α : Type} {p : α → Bool} {a b : List α} {c : α}
    (h : ∀ x ∈ a, p x) (hc : ¬ p c) : (a ++ c :: b).takeWhile p = a := by
  rw [takeWhile_append_all h, List.takeWhile_cons]
  simp [hc]

theorem dropWhile_append_stop {α : Type} {p : α → Bool} {a b : List α} {c : α}
    (h : ∀ x ∈ a, p x) (hc : ¬ p c) : (a ++ c :: b).dropWhile p = c :: b := by
  rw [dropWhile_append_all h, List.dropWhile_cons]
  simp [hc]

/-! ## Lemmas about the splitting helpers -/

theorem splitOnFirst_of_not_mem {sep : Char} {u : Str} (h : sep ∉ u) :
    splitOnFirst sep u = (u, []) := by
  unfold splitOnFirst
  simp [h]

theorem splitOnFirst_append {sep : Char} {a b : Str} (h : sep ∉ a) :
    splitOnFirst sep (a ++ sep :: b) = (a, b) := by
  unfold splitOnFirst
  have hmem : sep ∈ a ++ sep :: b := by
    simp
  rw [if_pos hmem]
  have hall : ∀ x ∈ a, (fun c => decide (c ≠ sep)) x = true := by
    intro x hx
    simp only [decide_eq_true_eq]
    intro hEq
    exact h (hEq ▸ hx)
  have hstop : ¬ ((fun c => decide (c ≠ sep)) sep = true) := by simp
  rw [takeWhile_append_stop hall hstop, dropWhile_append_stop hall hstop]
  rfl

theorem netlocSplit_append {n r : Str}
    (hn : ∀ c ∈ n, ¬ isNetlocDelim c)
    (hr : r = [] ∨ ∃ c rest, r = c :: rest ∧ isNetlocDelim c) :
    netlocSplit (n ++ r) = (n, r) := by
  unfold netlocSplit
  have hall : ∀ x ∈ n, (fun c => !(isNetlocDelim c)) x = true := by
    intro x hx
    simp [hn x hx]
  rcases hr with h0 | ⟨c, rest, hEq, hc⟩
  · subst h0
    rw [List.append_nil, takeWhile_eq_self_of_all hall]
    have : n.dropWhile (fun c => !(isNetlocDelim c)) = [] := by
      have := dropWhile_append_all (b := ([] : Str)) hall
      simpa using this
    rw [this]
  · subst hEq
    have hstop : ¬ ((fun c => !(isNetlocDelim c)) c = true) := by simp [hc]
    rw [takeWhile_append_stop hall hstop, dropWhile_append_stop hall hstop]

/-! ## Character lemmas -/

theorem charToNat_inj {c d : Char} (h : c.toNat = d.toNat) : c = d :=
  Char.eq_of_val_eq (UInt32.toNat.inj h)

theorem char_eq_iff_toNat {c d : Char} : c = d ↔ c.toNat = d.toNat :=
  ⟨fun h => h ▸ rfl, charToNat_inj⟩

theorem toNat_ofNat_valid {n : Nat} (h : n.isValidChar) : (Char.ofNat n).toNat = n := by
  unfold Char.ofNat
  rw [dif_pos h]
  rfl

theorem asciiLower_toNat (c : Char) :
    (asciiLower c).toNat = if 65 ≤ c.toNat ∧ c.toNat ≤ 90 then c.toNat + 32 else c.toNat := by
  by_cases h : 65 ≤ c.toNat ∧ c.toNat ≤ 90
  · rw [if_pos h]
    have hl : asciiLower c = Char.ofNat (c.toNat + 32) := if_pos h
    rw [hl]
    exact toNat_ofNat_valid (Or.inl (by omega))
  · rw [if_neg h]
    have hl : asciiLower c = c := if_neg h
    rw [hl]

theorem isAsciiAlpha_toNat (c : Char) : isAsciiAlpha c = true ↔
    (97 ≤ c.toNat ∧ c.toNat ≤ 122) ∨ (65 ≤ c.toNat ∧ c.toNat ≤ 90) := by
  unfold isAsciiAlpha
  rw [decide_eq_true_eq]
  exact Iff.rfl

theorem isSchemeChar_toNat (c : Char) : isSchemeChar c = true ↔
    (97 ≤ c.toNat ∧ c.toNat ≤ 122) ∨ (65 ≤ c.toNat ∧ c.toNat ≤ 90) ∨
    (48 ≤ c.toNat ∧ c.toNat ≤ 57) ∨ c.toNat = 43 ∨ c.toNat = 45 ∨ c.toNat = 46 := by
  unfold isSchemeChar
  rw [decide_eq_true_eq]
  constructor
  · rintro (h | h | h | h | h)
    · rcases (isAsciiAlpha_toNat c).mp h with h1 | h1
      · exact Or.inl h1
      · exact Or.inr (Or.inl h1)
    · exact Or.inr (Or.inr (Or.inl h))
    · exact Or.inr (Or.inr (Or.inr (Or.inl (char_eq_iff_toNat.mp h))))
    · exact Or.inr (Or.inr (Or.inr (Or.inr (Or.inl (char_eq_iff_toNat.mp h)))))
    · exact Or.inr (Or.inr (Or.inr (Or.inr (Or.inr (char_eq_iff_toNat.mp h)))))
  · rintro (h | h | h | h | h | h)
    · exact Or.inl ((isAsciiAlpha_toNat c).mpr (Or.inl h))
    · exact Or.inl ((isAsciiAlpha_toNat c).mpr (Or.inr h))
    · exact Or.inr (Or.inl h)
    · exact Or.inr (Or.inr (Or.inl (charToNat_inj h)))
    · exact Or.inr (Or.inr (Or.inr (Or.inl (charToNat_inj h))))
    · exact Or.inr (Or.inr (Or.inr (Or.inr (charToNat_inj h))))

theorem asciiLower_idem (c : Char) : asciiLower (asciiLower c) = asciiLower c := by
  apply charToNat_inj
  rw [asciiLower_toNat (asciiLower c), asciiLower_toNat c]
  by_cases h : 65 ≤ c.toNat ∧ c.toNat ≤ 90
  · rw [if_pos h, if_neg (by omega)]
  · rw [if_neg h, if_neg h]

theorem isSchemeChar_asciiLower {c : Char} (h : isSchemeChar c = true) :
    isSchemeChar (asciiLower c) = true := by
  rw [isSchemeChar_toNat] at h ⊢
  rw [asciiLower_toNat]
  by_cases h2 : 65 ≤ c.toNat ∧ c.toNat ≤ 90
  · rw [if_pos h2]; omega
  · rw [if_neg h2]; omega

theorem isAsciiAlpha_asciiLower {c : Char} (h : isAsciiAlpha c = true) :
    isAsciiAlpha (asciiLower c) = true := by
  rw [isAsciiAlpha_toNat] at h ⊢
  rw [asciiLower_toNat]
  by_cases h2 : 65 ≤ c.toNat ∧ c.toNat ≤ 90
  · rw [if_pos h2]; omega
  · rw [if_neg h2]; omega

/-- `asciiLower` maps only uppercase letters to lowercase ones, so any
value outside `a`–`z` is its own unique pre-image. -/
theorem asciiLower_eq_imp {x c : Char} (h : asciiLower x = c)
    (hc : ¬ (97 ≤ c.toNat ∧ c.toNat ≤ 122)) : x = c := by
  have hx := asciiLower_toNat x
  rw [h] at hx
  by_cases h2 : 65 ≤ x.toNat ∧ x.toNat ≤ 90
  · rw [if_pos h2] at hx
    exact absurd (by omega) hc
  · rw [if_neg h2] at hx
    exact charToNat_inj hx.symm

/-- A character excluded pointwise survives `List.map asciiLower`
exclusion, provided it is not a lowercase letter. -/
theorem not_mem_map_asciiLower {l : Str} {c : Char} (h : c ∉ l)
    (hc : ¬ (97 ≤ c.toNat ∧ c.toNat ≤ 122)) : c ∉ l.map asciiLower := by
  intro hmem
  obtain ⟨x, hx, hEq⟩ := List.mem_map.mp hmem
  exact h ((asciiLower_eq_imp hEq hc) ▸ hx)

/-! ## Facts about the URL splitting helpers -/

theorem splitOnFirst_fst_not_mem (sep : Char) (u : Str) :
    sep ∉ (splitOnFirst sep u).1 := by
  unfold splitOnFirst
  by_cases h : sep ∈ u
  · rw [if_pos h]
    intro hmem
    have := List.mem_takeWhile_imp hmem
    simp at this
  · rw [if_neg h]
    exact h

theorem splitOnFirst_fst_subset (sep : Char) (u : Str) :
    ∀ c ∈ (splitOnFirst sep u).1, c ∈ u := by
  unfold splitOnFirst
  by_cases h : sep ∈ u
  · rw [if_pos h]
    intro c hc
    exact mem_takeWhile hc
  · rw [if_neg h]
    intro c hc
    exact hc

theorem splitOnFirst_snd_subset (sep : Char) (u : Str) :
    ∀ c ∈ (splitOnFirst sep u).2, c ∈ u := by
  unfold splitOnFirst
  by_cases h : sep ∈ u
  · rw [if_pos h]
    intro c hc
    exact mem_dropWhile (mem_tail hc)
  · rw [if_neg h]
    intro c hc
    simp at hc

theorem splitOnFirst_fst_cons_ne {sep c : Char} {rest : Str} (h : c ≠ sep) :
    ∃ w, (splitOnFirst sep (c :: rest)).1 = c :: w := by
  unfold splitOnFirst
  by_cases hm : sep ∈ c :: rest
  · rw [if_pos hm]
    refine ⟨rest.takeWhile (fun x => decide (x ≠ sep)), ?_⟩
    rw [List.takeWhile_cons]
    simp [h]
  · rw [if_neg hm]
    exact ⟨rest, rfl⟩

theorem splitOnFirst_fst_cons_self (sep : Char) (rest : Str) :
    (splitOnFirst sep (sep :: rest)).1 = [] := by
  unfold splitOnFirst
  rw [if_pos (List.mem_cons_self sep rest)]
  rw [List.takeWhile_cons]
  simp

theorem splitOnFirst_nil (sep : Char) : splitOnFirst sep [] = ([], []) := by
  unfold splitOnFirst
  rw [if_neg (List.not_mem_nil sep)]

/-- `afterLastSlash` distributes over an appended slash-free suffix. -/
theorem afterLastSlash_append {a b : Str} (hb : '/' ∉ b) :
    afterLastSlash (a ++ b) = afterLastSlash a ++ b := by
  unfold afterLastSlash
  rw [List.reverse_append]
  have hall : ∀ x ∈ b.reverse, (fun c => decide (c ≠ '/')) x = true := by
    intro x hx
    simp only [decide_eq_true_eq]
    intro hEq
    exact hb (hEq ▸ List.mem_reverse.mp hx)
  rw [takeWhile_append_all hall, List.reverse_append, List.reverse_reverse]

/-- Recovering a params split from its reassembly. -/
theorem splitparams_recover {p params : Str} (hp1 : p.take 1 = ['/'])
    (hpsemi : ';' ∉ p) (hparams : '/' ∉ params) :
    splitparams (p ++ ';' :: params) = (p, params) := by
  have hpne : p ≠ [] := by intro hEq; rw [hEq] at hp1; simp at hp1
  have hpslash : '/' ∈ p := by
    obtain ⟨c, cs, hc⟩ := List.exists_cons_of_ne_nil hpne
    rw [hc] at hp1
    simp only [List.take, List.cons.injEq] at hp1
    rw [hc, hp1.1]
    exact List.mem_cons_self '/' cs
  have hsemiparams : '/' ∉ (';' :: params : Str) := by
    intro hmem
    rcases List.mem_cons.mp hmem with h | h
    · exact absurd h.symm (by decide)
    · exact hparams h
  have hals_mem : ∀ x ∈ afterLastSlash p, x ∈ p := by
    intro x hx
    unfold afterLastSlash at hx
    exact List.mem_reverse.mp (mem_takeWhile (List.mem_reverse.mp hx))
  have hals : ∀ x ∈ afterLastSlash p, (fun c => decide (c ≠ ';')) x = true := by
    intro x hx
    simp only [decide_eq_true_eq]
    intro hEq
    exact hpsemi (hEq ▸ hals_mem x hx)
  unfold splitparams
  rw [if_pos (List.mem_append_left _ hpslash)]
  rw [afterLastSlash_append hsemiparams]
  have htsemi : ';' ∈ afterLastSlash p ++ ';' :: params := by simp
  rw [if_pos htsemi]
  rw [dropWhile_append_stop hals (by simp)]
  rw [show ((p ++ ';' :: params).take
      ((p ++ ';' :: params).length - (';' :: params).length)) = p from by
    have hidx : (p ++ ';' :: params).length - (';' :: params).length = p.length := by
      simp only [List.length_append, List.length_cons]
      omega
    rw [hidx]
    exact List.take_left p (';' :: params)]
  rfl

theorem headD_append {a b : List Char} (h : a ≠ []) (d : Char) :
    (a ++ b).headD d = a.headD d := by
  cases a with
  | nil => exact absurd rfl h
  | cons x xs => rfl

theorem take1_eq_slash {x : Str} (h : x.take 1 = ['/']) : ∃ r, x = '/' :: r := by
  cases x with
  | nil => simp at h
  | cons c cs =>
    simp only [List.take, List.cons.injEq] at h
    exact ⟨cs, by rw [h.1]⟩

theorem cleanUrl_eq_self {v : Str} (h1 : ∀ c ∈ v, isUnsafeByte c = false)
    (h2 : v = [] ∨ isC0OrSpace (v.headD ' ') = false) : cleanUrl v = v := by
  unfold cleanUrl
  have hdrop : v.dropWhile isC0OrSpace = v := by
    cases v with
    | nil => rfl
    | cons c rest =>
      rcases h2 with h2 | h2
      · simp at h2
      · rw [List.dropWhile_cons, if_neg (by simp_all)]
  rw [hdrop]
  apply List.filter_eq_self.mpr
  intro c hc
  simp [h1 c hc]

theorem schemeSplit_append {s rest : Str} (hne : s ≠ [])
    (halpha : isAsciiAlpha (s.headD ' ') = true) (hall : s.all isSchemeChar = true) :
    schemeSplit (s ++ ':' :: rest) = some (s.map asciiLower, rest) := by
  have hnocolon : ∀ x ∈ s, (fun c => decide (c ≠ ':')) x = true := by
    intro x hx
    simp only [decide_eq_true_eq]
    intro hEq
    have hsc := (List.all_eq_true.mp hall) x hx
    rw [hEq] at hsc
    exact absurd hsc (by decide)
  have hpre : (s ++ ':' :: rest).takeWhile (fun c => decide (c ≠ ':')) = s :=
    takeWhile_append_stop hnocolon (by simp)
  unfold schemeSplit
  rw [hpre]
  rw [if_pos ⟨by simp, List.length_pos.mpr hne, halpha, hall⟩]
  have hdrop : (s ++ ':' :: rest).drop (s.length + 1) = rest := by
    rw [show s ++ ':' :: rest = (s ++ [':']) ++ rest from by simp]
    rw [show s.length + 1 = (s ++ [':']).length from by simp]
    exact List.drop_left _ _
  rw [hdrop]

theorem schemeSplit_none_of_head {u : Str} (h : isAsciiAlpha (u.headD ' ') = false) :
    schemeSplit u = none := by
  unfold schemeSplit
  cases hu : u with
  | nil => simp
  | cons c cs =>
    rw [if_neg]
    intro ⟨h1, h2, h3, h4⟩
    rw [List.takeWhile_cons] at h2 h3
    by_cases hc : c = ':'
    · simp [hc] at h2
    · rw [if_pos (by simp [hc])] at h3
      rw [hu] at h
      simp only [List.headD_cons] at h h3
      rw [h] at h3
      simp at h3

set_option maxHeartbeats 1600000 in
/-- Where each character of `urlunsplit`'s output comes from. -/
theorem mem_urlunsplit {scheme netloc path query fragment : Str} {c : Char}
    (h : c ∈ urlunsplit scheme netloc path query fragment) :
    c ∈ scheme ∨ c ∈ netloc ∨ c ∈ path ∨ c ∈ query ∨ c ∈ fragment ∨
      c = ':' ∨ c = '/' ∨ c = '?' ∨ c = '#' := by
  unfold urlunsplit at h
  by_cases hc1 : netloc ≠ [] ∨ (scheme ≠ [] ∧ scheme ∈ uses_netloc ∧ path.take 2 ≠ ['/', '/']) <;>
    (try simp [hc1] at h) <;>
    by_cases hc2 : path ≠ [] ∧ path.take 1 ≠ ['/'] <;>
    (try simp [hc2] at h) <;>
    by_cases hc3 : scheme = [] <;>
    (try simp [hc3] at h) <;>
    by_cases hc4 : query = [] <;>
    (try simp [hc4] at h) <;>
    by_cases hc5 : fragment = [] <;>
    (try simp [hc5] at h) <;>
    tauto

/-- Where each character of `urlunparse`'s output comes from. -/
theorem mem_urlunparse {t : ParseResult} {c : Char} (h : c ∈ urlunparse t) :
    c ∈ t.scheme ∨ c ∈ t.netloc ∨ c ∈ t.path ∨ c ∈ t.params ∨ c ∈ t.query ∨
      c ∈ t.fragment ∨ c = ':' ∨ c = '/' ∨ c = '?' ∨ c = '#' ∨ c = ';' := by
  unfold urlunparse at h
  rcases mem_urlunsplit h with h1 | h1 | h1 | h1 | h1 | h1 | h1 | h1 | h1
  · tauto
  · tauto
  · by_cases hp : t.params ≠ []
    · rw [if_pos hp] at h1
      simp only [List.mem_append, List.mem_cons] at h1
      tauto
    · rw [if_neg hp] at h1
      tauto
  · tauto
  · tauto
  · tauto
  · tauto
  · tauto
  · tauto

/-! ## Invariants of the `urlsplit` components -/

theorem dropWhile_head_not {α : Type} {p : α → Bool} {l w : List α} {c : α}
    (h : l.dropWhile p = c :: w) : p c = false := by
  induction l with
  | nil => simp at h
  | cons a rest ih =>
    rw [List.dropWhile_cons] at h
    by_cases hp : p a
    · exact ih (by simpa [hp] using h)
    · rw [if_neg (by simp [hp])] at h
      injection h with h1 _
      subst h1
      simpa using hp

theorem cleanUrl_no_unsafe {u : Str} : ∀ c ∈ cleanUrl u, isUnsafeByte c = false := by
  intro c hc
  unfold cleanUrl at hc
  have := List.of_mem_filter hc
  simpa using this

theorem cleanScheme_no_unsafe {u : Str} : ∀ c ∈ cleanScheme u, isUnsafeByte c = false := by
  intro c hc
  unfold cleanScheme at hc
  have := List.of_mem_filter hc
  simpa using this

theorem schemeSplit_some {u scheme rest : Str}
    (h : schemeSplit u = some (scheme, rest)) :
    ∃ pre, scheme = pre.map asciiLower ∧ pre ≠ [] ∧
      isAsciiAlpha (pre.headD ' ') = true ∧ pre.all isSchemeChar = true ∧
      (∀ c ∈ pre, c ∈ u) ∧ (∀ c ∈ rest, c ∈ u) := by
  simp only [schemeSplit] at h
  split at h
  · next hcond =>
    obtain ⟨h1, h2, h3, h4⟩ := hcond
    injection h with h'
    injection h' with hs hr
    refine ⟨u.takeWhile (fun c => decide (c ≠ ':')), hs.symm,
      List.length_pos.mp h2, h3, h4, fun c hc => mem_takeWhile hc, ?_⟩
    intro c hc
    rw [← hr] at hc
    exact List.mem_of_mem_drop hc
  · exact absurd h (by simp)

/-- The split of `urlsplitRaw` after the scheme step, as data: the
scheme comes either from the url text or from the cleaned default, and
the remainder is a subset of the cleaned url. -/
theorem urlsplitRaw_shape (d u : Str) :
    ∃ scheme url1 netloc url2,
      (schemeSplit (cleanUrl u) = some (scheme, url1) ∨
        (schemeSplit (cleanUrl u) = none ∧ scheme = cleanScheme d ∧ url1 = cleanUrl u)) ∧
      ((url1.take 2 = ['/', '/'] ∧ netloc = (netlocSplit (url1.drop 2)).1 ∧
          url2 = (netlocSplit (url1.drop 2)).2) ∨
        (url1.take 2 ≠ ['/', '/'] ∧ netloc = [] ∧ url2 = url1)) ∧
      urlsplitRaw d u = ⟨scheme, netloc,
        (splitOnFirst '?' (splitOnFirst '#' url2).1).1,
        (splitOnFirst '?' (splitOnFirst '#' url2).1).2,
        (splitOnFirst '#' url2).2⟩ := by
  cases hss : schemeSplit (cleanUrl u) with
  | some su =>
    obtain ⟨s1, s2⟩ := su
    by_cases h2 : s2.take 2 = ['/', '/']
    · refine ⟨s1, s2, (netlocSplit (s2.drop 2)).1, (netlocSplit (s2.drop 2)).2,
        Or.inl rfl, Or.inl ⟨h2, rfl, rfl⟩, ?_⟩
      unfold urlsplitRaw
      simp only [hss]
      rw [if_pos h2]
    · refine ⟨s1, s2, [], s2, Or.inl rfl, Or.inr ⟨h2, rfl, rfl⟩, ?_⟩
      unfold urlsplitRaw
      simp only [hss]
      rw [if_neg h2]
  | none =>
    by_cases h2 : (cleanUrl u).take 2 = ['/', '/']
    · refine ⟨cleanScheme d, cleanUrl u, (netlocSplit ((cleanUrl u).drop 2)).1,
        (netlocSplit ((cleanUrl u).drop 2)).2,
        Or.inr ⟨rfl, rfl, rfl⟩, Or.inl ⟨h2, rfl, rfl⟩, ?_⟩
      unfold urlsplitRaw
      simp only [hss]
      rw [if_pos h2]
    · refine ⟨cleanScheme d, cleanUrl u, [], cleanUrl u,
        Or.inr ⟨rfl, rfl, rfl⟩, Or.inr ⟨h2, rfl, rfl⟩, ?_⟩
      unfold urlsplitRaw
      simp only [hss]
      rw [if_neg h2]

theorem urlsplitRaw_netloc_delim (d u : Str) :
    ∀ c ∈ (urlsplitRaw d u).netloc, isNetlocDelim c = false := by
  obtain ⟨scheme, url1, netloc, url2, hs, hn, hEq⟩ := urlsplitRaw_shape d u
  rw [hEq]
  intro c hc
  rcases hn with ⟨h2, hnet, hrest⟩ | ⟨h2, hnet, hrest⟩
  · rw [hnet] at hc
    unfold netlocSplit at hc
    have := List.mem_takeWhile_imp hc
    simpa using this
  · rw [hnet] at hc
    simp at hc

theorem urlsplitRaw_path_no_hash (d u : Str) : '#' ∉ (urlsplitRaw d u).path := by
  obtain ⟨scheme, url1, netloc, url2, hs, hn, hEq⟩ := urlsplitRaw_shape d u
  rw [hEq]
  intro hc
  exact splitOnFirst_fst_not_mem '#' url2
    (splitOnFirst_fst_subset '?' (splitOnFirst '#' url2).1 '#' hc)

theorem urlsplitRaw_path_no_question (d u : Str) : '?' ∉ (urlsplitRaw d u).path := by
  obtain ⟨scheme, url1, netloc, url2, hs, hn, hEq⟩ := urlsplitRaw_shape d u
  rw [hEq]
  exact splitOnFirst_fst_not_mem '?' (splitOnFirst '#' url2).1

theorem urlsplitRaw_query_no_hash (d u : Str) : '#' ∉ (urlsplitRaw d u).query := by
  obtain ⟨scheme, url1, netloc, url2, hs, hn, hEq⟩ := urlsplitRaw_shape d u
  rw [hEq]
  intro hc
  exact splitOnFirst_fst_not_mem '#' url2
    (splitOnFirst_snd_subset '?' (splitOnFirst '#' url2).1 '#' hc)

theorem urlsplitRaw_netloc_path_shape (d u : Str)
    (h : (urlsplitRaw d u).netloc ≠ []) :
    (urlsplitRaw d u).path = [] ∨ (urlsplitRaw d u).path.take 1 = ['/'] := by
  obtain ⟨scheme, url1, netloc, url2, hs, hn, hEq⟩ := urlsplitRaw_shape d u
  rw [hEq] at h ⊢
  rcases hn with ⟨h2, hnet, hrest⟩ | ⟨h2, hnet, hrest⟩
  · -- url2 is [] or starts with a delimiter
    have hu2 : url2 = [] ∨ ∃ c rest, url2 = c :: rest ∧ isNetlocDelim c = true := by
      rw [hrest]
      unfold netlocSplit
      cases hdw : (url1.drop 2).dropWhile (fun c => !(isNetlocDelim c)) with
      | nil => exact Or.inl rfl
      | cons c rest =>
        refine Or.inr ⟨c, rest, rfl, ?_⟩
        have := dropWhile_head_not hdw
        simpa using this
    rcases hu2 with hu2 | ⟨c, rest, hu2, hdelim⟩
    · subst hu2
      rw [splitOnFirst_nil, splitOnFirst_nil]
      exact Or.inl rfl
    · subst hu2
      unfold isNetlocDelim at hdelim
      rw [decide_eq_true_eq] at hdelim
      rcases hdelim with hcc | hcc | hcc
      · subst hcc
        obtain ⟨w, hw⟩ := @splitOnFirst_fst_cons_ne '#' '/' rest (by decide)
        rw [hw]
        obtain ⟨w2, hw2⟩ := @splitOnFirst_fst_cons_ne '?' '/' w (by decide)
        rw [hw2]
        exact Or.inr rfl
      · subst hcc
        obtain ⟨w, hw⟩ := @splitOnFirst_fst_cons_ne '#' '?' rest (by decide)
        rw [hw, splitOnFirst_fst_cons_self]
        exact Or.inl rfl
      · subst hcc
        rw [splitOnFirst_fst_cons_self]
        rw [splitOnFirst_nil]
        exact Or.inl rfl
  · rw [hnet] at h
    exact absurd rfl h

theorem cleanScheme_nil : cleanScheme [] = [] := rfl

theorem urlsplitRaw_scheme_structure (d u : Str) :
    (urlsplitRaw d u).scheme = cleanScheme d ∨
      ((urlsplitRaw d u).scheme ≠ [] ∧
        isAsciiAlpha ((urlsplitRaw d u).scheme.headD ' ') = true ∧
        (urlsplitRaw d u).scheme.all isSchemeChar = true ∧
        (urlsplitRaw d u).scheme.map asciiLower = (urlsplitRaw d u).scheme ∧
        (∀ c ∈ (urlsplitRaw d u).scheme, isUnsafeByte c = false)) := by
  obtain ⟨scheme, url1, netloc, url2, hs, hn, hEq⟩ := urlsplitRaw_shape d u
  rw [hEq]
  rcases hs with hs | ⟨hs, hd, hu1⟩
  · obtain ⟨pre, hpre, hne, halpha, hall, hsub, hrest⟩ := schemeSplit_some hs
    refine Or.inr ⟨?_, ?_, ?_, ?_, ?_⟩
    · rw [hpre]
      intro hc
      exact hne (List.map_eq_nil.mp hc)
    · rw [hpre]
      obtain ⟨p0, ps, hp0⟩ := List.exists_cons_of_ne_nil hne
      rw [hp0]
      simp only [List.map_cons, List.headD_cons]
      rw [hp0] at halpha
      simp only [List.headD_cons] at halpha
      exact isAsciiAlpha_asciiLower halpha
    · rw [hpre]
      rw [List.all_eq_true] at hall ⊢
      intro c hc
      obtain ⟨x, hx, hxc⟩ := List.mem_map.mp hc
      exact hxc ▸ isSchemeChar_asciiLower (hall x hx)
    · rw [hpre, List.map_map]
      apply List.map_congr_left
      intro x hx
      exact asciiLower_idem x
    · rw [hpre]
      intro c hc
      obtain ⟨x, hx, hxc⟩ := List.mem_map.mp hc
      by_cases hlow : 97 ≤ c.toNat ∧ c.toNat ≤ 122
      · -- a lowercase letter is never an unsafe byte
        unfold isUnsafeByte
        rw [decide_eq_false_iff_not]
        rw [char_eq_iff_toNat, char_eq_iff_toNat, char_eq_iff_toNat]
        push_neg
        refine ⟨?_, ?_, ?_⟩
        · rw [show ('\t').toNat = 9 from rfl]; omega
        · rw [show ('\r').toNat = 13 from rfl]; omega
        · rw [show ('\n').toNat = 10 from rfl]; omega
      · have := asciiLower_eq_imp hxc hlow
        subst this
        have hcin : x ∈ cleanUrl u := hsub x hx
        exact cleanUrl_no_unsafe x hcin
  · exact Or.inl hd

theorem urlsplitRaw_components_subset (d u : Str) :
    (∀ c ∈ (urlsplitRaw d u).netloc, c ∈ cleanUrl u) ∧
    (∀ c ∈ (urlsplitRaw d u).path, c ∈ cleanUrl u) ∧
    (∀ c ∈ (urlsplitRaw d u).query, c ∈ cleanUrl u) ∧
    (∀ c ∈ (urlsplitRaw d u).fragment, c ∈ cleanUrl u) := by
  obtain ⟨scheme, url1, netloc, url2, hs, hn, hEq⟩ := urlsplitRaw_shape d u
  have hurl1 : ∀ c ∈ url1, c ∈ cleanUrl u := by
    rcases hs with hs | ⟨hs, hd, hu1⟩
    · obtain ⟨pre, hpre, hne, halpha, hall, hsub, hrest⟩ := schemeSplit_some hs
      exact hrest
    · rw [hu1]
      intro c hc
      exact hc
  have hurl2 : ∀ c ∈ url2, c ∈ cleanUrl u := by
    rcases hn with ⟨h2, hnet, hrest⟩ | ⟨h2, hnet, hrest⟩
    · rw [hrest]
      unfold netlocSplit
      intro c hc
      exact hurl1 c (List.mem_of_mem_drop (mem_dropWhile hc))
    · rw [hrest]
      exact hurl1
  have hnetsub : ∀ c ∈ netloc, c ∈ cleanUrl u := by
    rcases hn with ⟨h2, hnet, hrest⟩ | ⟨h2, hnet, hrest⟩
    · rw [hnet]
      unfold netlocSplit
      intro c hc
      exact hurl1 c (List.mem_of_mem_drop (mem_takeWhile hc))
    · rw [hnet]
      intro c hc
      simp at hc
  rw [hEq]
  refine ⟨hnetsub, ?_, ?_, ?_⟩
  · intro c hc
    exact hurl2 c (splitOnFirst_fst_subset '#' url2 c
      (splitOnFirst_fst_subset '?' (splitOnFirst '#' url2).1 c hc))
  · intro c hc
    exact hurl2 c (splitOnFirst_fst_subset '#' url2 c
      (splitOnFirst_snd_subset '?' (splitOnFirst '#' url2).1 c hc))
  · intro c hc
    exact hurl2 c (splitOnFirst_snd_subset '#' url2 c hc)

/-! ## Invariants of `_splitparams` and `urlparse` -/

theorem afterLastSlash_no_slash (u : Str) : '/' ∉ afterLastSlash u := by
  unfold afterLastSlash
  intro hc
  have := List.mem_takeWhile_imp (List.mem_reverse.mp hc)
  simp at this

theorem afterLastSlash_subset (u : Str) : ∀ c ∈ afterLastSlash u, c ∈ u := by
  intro c hc
  unfold afterLastSlash at hc
  exact List.mem_reverse.mp (mem_takeWhile (List.mem_reverse.mp hc))

theorem splitparams_fst_subset (u : Str) : ∀ c ∈ (splitparams u).1, c ∈ u := by
  unfold splitparams
  split_ifs with h1 h2 h3
  · intro c hc
    exact List.mem_of_mem_take hc
  · intro c hc
    exact hc
  · intro c hc
    exact mem_takeWhile hc
  · intro c hc
    exact mem_dropLast hc

theorem splitparams_snd_subset (u : Str) : ∀ c ∈ (splitparams u).2, c ∈ u := by
  unfold splitparams
  split_ifs with h1 h2 h3
  · intro c hc
    exact afterLastSlash_subset u c (mem_dropWhile (mem_tail hc))
  · intro c hc
    simp at hc
  · intro c hc
    exact mem_dropWhile (mem_tail hc)
  · intro c hc
    exact hc

theorem splitparams_snd_no_slash (u : Str) : '/' ∉ (splitparams u).2 := by
  unfold splitparams
  split_ifs with h1 h2 h3
  · intro hc
    exact afterLastSlash_no_slash u (mem_dropWhile (mem_tail hc))
  · simp
  · intro hc
    exact h1 (mem_dropWhile (mem_tail hc))
  · exact h1

theorem splitparams_fst_shape {u : Str} (h : u.take 1 = ['/']) :
    (splitparams u).1 = [] ∨ (splitparams u).1.take 1 = ['/'] := by
  obtain ⟨r, hr⟩ := take1_eq_slash h
  unfold splitparams
  split_ifs with h1 h2 h3
  · cases hm : u.length - ((afterLastSlash u).dropWhile (fun c => c ≠ ';')).length with
    | zero => exact Or.inl (by simp)
    | succ m =>
      refine Or.inr ?_
      show List.take 1 (List.take (m + 1) u) = ['/']
      rw [List.take_take]
      rw [show min 1 (m + 1) = 1 from by omega]
      exact h
  · exact Or.inr h
  · rw [hr]
    rw [List.takeWhile_cons]
    rw [if_pos (by decide)]
    exact Or.inr rfl
  · rw [hr]
    cases r with
    | nil => exact Or.inl rfl
    | cons x xs =>
      rw [List.dropLast_cons₂]
      exact Or.inr rfl

theorem paramsSplit_scheme (s : SplitResult) : (paramsSplit s).scheme = s.scheme := by
  unfold paramsSplit
  split <;> rfl

theorem paramsSplit_netloc (s : SplitResult) : (paramsSplit s).netloc = s.netloc := by
  unfold paramsSplit
  split <;> rfl

theorem paramsSplit_query (s : SplitResult) : (paramsSplit s).query = s.query := by
  unfold paramsSplit
  split <;> rfl

theorem paramsSplit_fragment (s : SplitResult) : (paramsSplit s).fragment = s.fragment := by
  unfold paramsSplit
  split <;> rfl

theorem paramsSplit_path_subset (s : SplitResult) :
    ∀ c ∈ (paramsSplit s).path, c ∈ s.path := by
  unfold paramsSplit
  split
  · intro c hc
    exact splitparams_fst_subset s.path c hc
  · intro c hc
    exact hc

theorem paramsSplit_params_subset (s : SplitResult) :
    ∀ c ∈ (paramsSplit s).params, c ∈ s.path := by
  unfold paramsSplit
  split
  · intro c hc
    exact splitparams_snd_subset s.path c hc
  · intro c hc
    simp at hc

theorem paramsSplit_params_no_slash (s : SplitResult) : '/' ∉ (paramsSplit s).params := by
  unfold paramsSplit
  split
  · exact splitparams_snd_no_slash s.path
  · simp

theorem paramsSplit_params_uses (s : SplitResult)
    (h : (paramsSplit s).params ≠ []) : s.scheme ∈ uses_params := by
  unfold paramsSplit at h
  split at h
  · next hcond => exact hcond.1
  · simp at h

theorem paramsSplit_path_shape (s : SplitResult)
    (h : s.path = [] ∨ s.path.take 1 = ['/']) :
    (paramsSplit s).path = [] ∨ (paramsSplit s).path.take 1 = ['/'] := by
  unfold paramsSplit
  split
  · rcases h with h | h
    · rw [h]
      left
      unfold splitparams
      rw [if_neg (by simp), if_neg (by simp)]
      rfl
    · exact splitparams_fst_shape h
  · exact h

theorem paramsSplit_of_no_semi {s : SplitResult} (h : ';' ∉ s.path) :
    paramsSplit s = ⟨s.scheme, s.netloc, s.path, [], s.query, s.fragment⟩ := by
  unfold paramsSplit
  rw [if_neg (by
    intro ⟨h1, h2⟩
    exact h h2)]

theorem urlparse_ok_iff {u : Str} {t : ParseResult} :
    urlparse u = .ok t ↔
      ¬ bracketMismatch (urlsplitRaw [] u).netloc ∧ t = paramsSplit (urlsplitRaw [] u) := by
  unfold urlparse urlparseWith urlsplit
  by_cases hb : bracketMismatch (urlsplitRaw [] u).netloc
  · rw [if_pos hb]
    simp [hb, Except.map]
  · rw [if_neg hb]
    simp only [Except.map, not_false_iff, true_and, hb]
    constructor
    · intro h
      injection h with h
      exact h.symm
    · intro h
      rw [h]

/-- `splitOnFirst` over a separator-prefixed optional tail. -/
theorem splitOnFirst_opt {sep : Char} {a b : Str} (h : sep ∉ a) :
    splitOnFirst sep (a ++ (if b ≠ [] then sep :: b else [])) = (a, b) := by
  by_cases hb : b ≠ []
  · rw [if_pos hb]
    exact splitOnFirst_append h
  · rw [if_neg hb, List.append_nil, splitOnFirst_of_not_mem h]
    push_neg at hb
    rw [hb]

set_option maxHeartbeats 1000000 in
/-- `urlsplitRaw` recovers the components of a clean string assembled in
the `scheme://netloc/path?query#fragment` shape. -/
theorem urlsplitRaw_assembled {s n pp q f : Str}
    (hs : s = [] ∨ (isAsciiAlpha (s.headD ' ') = true ∧ s.all isSchemeChar = true ∧
      s.map asciiLower = s))
    (hn_delim : ∀ c ∈ n, isNetlocDelim c = false)
    (hpp1 : pp.take 1 = ['/'])
    (hpp_hash : '#' ∉ pp) (hpp_q : '?' ∉ pp)
    (hq_hash : '#' ∉ q)
    (hclean : cleanUrl ((if s ≠ [] then s ++ [':'] else []) ++
      ('/' :: '/' :: (n ++ (pp ++ ((if q ≠ [] then '?' :: q else []) ++
        (if f ≠ [] then '#' :: f else [])))))) =
      (if s ≠ [] then s ++ [':'] else []) ++
        ('/' :: '/' :: (n ++ (pp ++ ((if q ≠ [] then '?' :: q else []) ++
          (if f ≠ [] then '#' :: f else [])))))) :
    urlsplitRaw [] ((if s ≠ [] then s ++ [':'] else []) ++
      ('/' :: '/' :: (n ++ (pp ++ ((if q ≠ [] then '?' :: q else []) ++
        (if f ≠ [] then '#' :: f else [])))))) = ⟨s, n, pp, q, f⟩ := by
  set SO : Str := if s ≠ [] then s ++ [':'] else [] with hSO
  set QO : Str := if q ≠ [] then '?' :: q else [] with hQO
  set FO : Str := if f ≠ [] then '#' :: f else [] with hFO
  have hnet : netlocSplit (n ++ (pp ++ (QO ++ FO))) = (n, pp ++ (QO ++ FO)) := by
    apply netlocSplit_append
    · intro c hc
      simp [hn_delim c hc]
    · right
      obtain ⟨pr, hpr⟩ := take1_eq_slash hpp1
      refine ⟨'/', pr ++ (QO ++ FO), ?_, by decide⟩
      rw [hpr]
      rfl
  have hfrag : splitOnFirst '#' (pp ++ (QO ++ FO)) = (pp ++ QO, f) := by
    rw [← List.append_assoc, hFO]
    apply splitOnFirst_opt
    intro hc
    rcases List.mem_append.mp hc with hc | hc
    · exact hpp_hash hc
    · rw [hQO] at hc
      by_cases hqne : q ≠ []
      · rw [if_pos hqne] at hc
        rcases List.mem_cons.mp hc with hc | hc
        · exact absurd hc (by decide)
        · exact hq_hash hc
      · rw [if_neg hqne] at hc
        simp at hc
  have hquery : splitOnFirst '?' (pp ++ QO) = (pp, q) := by
    rw [hQO]
    exact splitOnFirst_opt hpp_q
  by_cases hsne : s ≠ []
  · rcases hs with hs0 | ⟨hsa, hsall, hslow⟩
    · exact absurd hs0 hsne
    have hss : schemeSplit (SO ++ ('/' :: '/' :: (n ++ (pp ++ (QO ++ FO))))) =
        some (s, '/' :: '/' :: (n ++ (pp ++ (QO ++ FO)))) := by
      rw [hSO, if_pos hsne, List.append_assoc, List.singleton_append]
      rw [schemeSplit_append hsne hsa hsall, hslow]
    unfold urlsplitRaw
    simp only [hclean, hss]
    rw [if_pos (show List.take 2 ('/' :: '/' :: (n ++ (pp ++ (QO ++ FO)))) = ['/', '/']
      from rfl)]
    rw [show List.drop 2 ('/' :: '/' :: (n ++ (pp ++ (QO ++ FO)))) = n ++ (pp ++ (QO ++ FO))
      from rfl]
    rw [hnet]
    simp only [hfrag, hquery]
  · push_neg at hsne
    have hSO0 : SO = [] := by
      rw [hSO, if_neg (by simp [hsne])]
    have hss : schemeSplit (SO ++ ('/' :: '/' :: (n ++ (pp ++ (QO ++ FO))))) = none := by
      rw [hSO0, List.nil_append]
      exact schemeSplit_none_of_head rfl
    unfold urlsplitRaw
    simp only [hclean, hss]
    rw [show cleanScheme ([] : Str) = [] from rfl]
    rw [hSO0, List.nil_append]
    rw [if_pos (show List.take 2 ('/' :: '/' :: (n ++ (pp ++ (QO ++ FO)))) = ['/', '/']
      from rfl)]
    rw [show List.drop 2 ('/' :: '/' :: (n ++ (pp ++ (QO ++ FO)))) = n ++ (pp ++ (QO ++ FO))
      from rfl]
    rw [hnet]
    simp only [hfrag, hquery, hsne]

set_option maxHeartbeats 800000 in
/-- Reparsing an assembled URL with nonempty authority and an absolute
path recovers exactly the assembled components. -/
theorem urlparse_unparse {t : ParseResult}
    (hs : t.scheme = [] ∨ (isAsciiAlpha (t.scheme.headD ' ') = true ∧
      t.scheme.all isSchemeChar = true ∧ t.scheme.map asciiLower = t.scheme))
    (hsu : ∀ c ∈ t.scheme, isUnsafeByte c = false)
    (hn_ne : t.netloc ≠ [])
    (hn_delim : ∀ c ∈ t.netloc, isNetlocDelim c = false)
    (hn_brackets : ¬ bracketMismatch t.netloc)
    (hnu : ∀ c ∈ t.netloc, isUnsafeByte c = false)
    (hp1 : t.path.take 1 = ['/'])
    (hp_hash : '#' ∉ t.path) (hp_q : '?' ∉ t.path) (hp_semi : ';' ∉ t.path)
    (hpu : ∀ c ∈ t.path, isUnsafeByte c = false)
    (hparams_slash : '/' ∉ t.params) (hparams_hash : '#' ∉ t.params)
    (hparams_q : '?' ∉ t.params)
    (hpru : ∀ c ∈ t.params, isUnsafeByte c = false)
    (hparams_scheme : t.params ≠ [] → t.scheme ∈ uses_params)
    (hq_hash : '#' ∉ t.query)
    (hqu : ∀ c ∈ t.query, isUnsafeByte c = false)
    (hfu : ∀ c ∈ t.fragment, isUnsafeByte c = false) :
    urlparse (urlunparse t) = .ok t := by
  obtain ⟨s, n, p, params, q, f⟩ := t
  dsimp only at hs hsu hn_ne hn_delim hn_brackets hnu hp1 hp_hash hp_q hp_semi hpu hparams_slash hparams_hash hparams_q hpru hparams_scheme hq_hash hqu hfu
  -- the combined path ++ params chunk
  have hppslash : (if params ≠ [] then p ++ ';' :: params else p).take 1 = ['/'] := by
    by_cases hpar : params ≠ []
    · rw [if_pos hpar]
      have hple : 1 ≤ p.length := by
        obtain ⟨r, hr⟩ := take1_eq_slash hp1
        rw [hr]
        simp
      rw [List.take_append_of_le_length hple]
      exact hp1
    · rw [if_neg hpar]
      exact hp1
  have hpp_hash : '#' ∉ (if params ≠ [] then p ++ ';' :: params else p) := by
    by_cases hpar : params ≠ []
    · rw [if_pos hpar]
      intro hc
      rcases List.mem_append.mp hc with hc | hc
      · exact hp_hash hc
      · rcases List.mem_cons.mp hc with hc | hc
        · exact absurd hc.symm (by decide)
        · exact hparams_hash hc
    · rw [if_neg hpar]
      exact hp_hash
  have hpp_q : '?' ∉ (if params ≠ [] then p ++ ';' :: params else p) := by
    by_cases hpar : params ≠ []
    · rw [if_pos hpar]
      intro hc
      rcases List.mem_append.mp hc with hc | hc
      · exact hp_q hc
      · rcases List.mem_cons.mp hc with hc | hc
        · exact absurd hc.symm (by decide)
        · exact hparams_q hc
    · rw [if_neg hpar]
      exact hp_q
  -- compute the assembled string
  have hunsplit : urlunparse ⟨s, n, p, params, q, f⟩ =
      (if s ≠ [] then s ++ [':'] else []) ++
        ('/' :: '/' :: (n ++ ((if params ≠ [] then p ++ ';' :: params else p) ++
          ((if q ≠ [] then '?' :: q else []) ++ (if f ≠ [] then '#' :: f else []))))) := by
    unfold urlunparse urlunsplit
    dsimp only
    rw [if_pos (Or.inl hn_ne)]
    rw [if_neg (show ¬((if params ≠ [] then p ++ ';' :: params else p) ≠ [] ∧
      (if params ≠ [] then p ++ ';' :: params else p).take 1 ≠ ['/'])
      from fun h => h.2 hppslash)]
    by_cases hsne : s ≠ [] <;> by_cases hqne : q ≠ [] <;> by_cases hfne : f ≠ [] <;>
      simp [hsne, hqne, hfne]
  rw [hunsplit]
  -- the string is already clean
  have hclean : cleanUrl ((if s ≠ [] then s ++ [':'] else []) ++
      ('/' :: '/' :: (n ++ ((if params ≠ [] then p ++ ';' :: params else p) ++
        ((if q ≠ [] then '?' :: q else []) ++ (if f ≠ [] then '#' :: f else [])))))) =
      (if s ≠ [] then s ++ [':'] else []) ++
        ('/' :: '/' :: (n ++ ((if params ≠ [] then p ++ ';' :: params else p) ++
          ((if q ≠ [] then '?' :: q else []) ++ (if f ≠ [] then '#' :: f else []))))) := by
    rw [← hunsplit]
    apply cleanUrl_eq_self
    · intro c hc
      rcases mem_urlunparse hc with h1 | h1 | h1 | h1 | h1 | h1 | h1 | h1 | h1 | h1 | h1
      · exact hsu c h1
      · exact hnu c h1
      · exact hpu c h1
      · exact hpru c h1
      · exact hqu c h1
      · exact hfu c h1
      · rw [h1]; rfl
      · rw [h1]; rfl
      · rw [h1]; rfl
      · rw [h1]; rfl
      · rw [h1]; rfl
    · right
      rw [hunsplit]
      by_cases hsne : s ≠ []
      · rw [if_pos hsne]
        rw [List.append_assoc]
        rw [headD_append hsne]
        rcases hs with hs | ⟨hsa, _, _⟩
        · exact absurd hs hsne
        · rw [isAsciiAlpha_toNat] at hsa
          unfold isC0OrSpace
          rw [decide_eq_false_iff_not]
          omega
      · rw [if_neg hsne, List.nil_append]
        rfl
  -- reparse the assembled string
  have hpp_q2 : '?' ∉ (if params ≠ [] then p ++ ';' :: params else p) := hpp_q
  have hraw := urlsplitRaw_assembled hs hn_delim hppslash hpp_hash hpp_q2 hq_hash hclean
  rw [urlparse_ok_iff, hraw]
  refine ⟨hn_brackets, ?_⟩
  by_cases hpar : params ≠ []
  · rw [if_pos hpar]
    have hsplit : paramsSplit ⟨s, n, p ++ ';' :: params, q, f⟩ =
        ⟨s, n, p, params, q, f⟩ := by
      unfold paramsSplit
      rw [if_pos ⟨hparams_scheme hpar, by simp⟩]
      simp only [splitparams_recover hp1 hp_semi hparams_slash]
    rw [hsplit]
  · rw [if_neg hpar]
    push_neg at hpar
    rw [@paramsSplit_of_no_semi ⟨s, n, p, q, f⟩ hp_semi, hpar]

/-- Hygiene facts about the components of a successful `urlparse`. -/
theorem urlparse_components {u : Str} {t : ParseResult} (h : urlparse u = .ok t) :
    (t.scheme = [] ∨ (isAsciiAlpha (t.scheme.headD ' ') = true ∧
      t.scheme.all isSchemeChar = true ∧ t.scheme.map asciiLower = t.scheme)) ∧
    (∀ c ∈ t.scheme, isUnsafeByte c = false) ∧
    (∀ c ∈ t.netloc, isNetlocDelim c = false) ∧
    (¬ bracketMismatch t.netloc) ∧
    (∀ c ∈ t.netloc, isUnsafeByte c = false) ∧
    (t.netloc ≠ [] → t.path = [] ∨ t.path.take 1 = ['/']) ∧
    ('#' ∉ t.path) ∧ ('?' ∉ t.path) ∧
    (∀ c ∈ t.path, isUnsafeByte c = false) ∧
    ('/' ∉ t.params) ∧ ('#' ∉ t.params) ∧ ('?' ∉ t.params) ∧
    (∀ c ∈ t.params, isUnsafeByte c = false) ∧
    (t.params ≠ [] → t.scheme ∈ uses_params) ∧
    ('#' ∉ t.query) ∧
    (∀ c ∈ t.query, isUnsafeByte c = false) ∧
    (∀ c ∈ t.fragment, isUnsafeByte c = false) := by
  rw [urlparse_ok_iff] at h
  obtain ⟨hb, ht⟩ := h
  subst ht
  obtain ⟨hnet_sub, hpath_sub, hq_sub, hf_sub⟩ := urlsplitRaw_components_subset [] u
  refine ⟨?_, ?_, ?_, ?_, ?_, ?_, ?_, ?_, ?_, ?_, ?_, ?_, ?_, ?_, ?_, ?_, ?_⟩
  · rw [paramsSplit_scheme]
    rcases urlsplitRaw_scheme_structure [] u with hss | ⟨_, h1, h2, h3, _⟩
    · left
      rw [hss]
      rfl
    · exact Or.inr ⟨h1, h2, h3⟩
  · rw [paramsSplit_scheme]
    rcases urlsplitRaw_scheme_structure [] u with hss | ⟨_, _, _, _, h4⟩
    · rw [hss]
      intro c hc
      simp [cleanScheme] at hc
    · exact h4
  · rw [paramsSplit_netloc]
    exact urlsplitRaw_netloc_delim [] u
  · rw [paramsSplit_netloc]
    exact hb
  · rw [paramsSplit_netloc]
    intro c hc
    exact cleanUrl_no_unsafe c (hnet_sub c hc)
  · rw [paramsSplit_netloc]
    intro hn
    exact paramsSplit_path_shape _ (urlsplitRaw_netloc_path_shape [] u hn)
  · intro hc
    exact urlsplitRaw_path_no_hash [] u (paramsSplit_path_subset _ '#' hc)
  · intro hc
    exact urlsplitRaw_path_no_question [] u (paramsSplit_path_subset _ '?' hc)
  · intro c hc
    exact cleanUrl_no_unsafe c (hpath_sub c (paramsSplit_path_subset _ c hc))
  · exact paramsSplit_params_no_slash _
  · intro hc
    exact urlsplitRaw_path_no_hash [] u (paramsSplit_params_subset _ '#' hc)
  · intro hc
    exact urlsplitRaw_path_no_question [] u (paramsSplit_params_subset _ '?' hc)
  · intro c hc
    exact cleanUrl_no_unsafe c (hpath_sub c (paramsSplit_params_subset _ c hc))
  · intro hp
    rw [paramsSplit_scheme]
    exact paramsSplit_params_uses _ hp
  · rw [paramsSplit_query]
    exact urlsplitRaw_query_no_hash [] u
  · rw [paramsSplit_query]
    intro c hc
    exact cleanUrl_no_unsafe c (hq_sub c hc)
  · rw [paramsSplit_fragment]
    intro c hc
    exact cleanUrl_no_unsafe c (hf_sub c hc)

/-! ## `splitSlash` and `joinSlash` -/

theorem splitSlash_ne_nil (s : Str) : splitSlash s ≠ [] := by
  cases s with
  | nil => simp [splitSlash]
  | cons c rest =>
    unfold splitSlash
    by_cases h : c = '/'
    · simp [h]
    · simp only [h, if_false]
      cases hs : splitSlash rest <;> simp

theorem splitSlash_piece_no_slash {s : Str} : ∀ piece ∈ splitSlash s, '/' ∉ piece := by
  induction s with
  | nil =>
    intro piece hp
    simp [splitSlash] at hp
    simp [hp]
  | cons c rest ih =>
    intro piece hp
    unfold splitSlash at hp
    by_cases h : c = '/'
    · simp only [h, if_true, List.mem_cons] at hp
      rcases hp with hp | hp
      · simp [hp]
      · exact ih piece hp
    · simp only [h, if_false] at hp
      cases hs : splitSlash rest with
      | nil => exact absurd hs (splitSlash_ne_nil rest)
      | cons p ps =>
        rw [hs, List.mem_cons] at hp
        rcases hp with hp | hp
        · subst hp
          intro hmem
          rcases List.mem_cons.mp hmem with h1 | h1
          · exact h h1.symm
          · exact ih p (hs ▸ List.mem_cons_self p ps) h1
        · exact ih piece (hs ▸ List.mem_cons_of_mem p hp)

theorem splitSlash_piece_chars {s : Str} :
    ∀ piece ∈ splitSlash s, ∀ c ∈ piece, c ∈ s := by
  induction s with
  | nil =>
    intro piece hp
    simp [splitSlash] at hp
    simp [hp]
  | cons a rest ih =>
    intro piece hp c hc
    unfold splitSlash at hp
    by_cases h : a = '/'
    · simp only [h, if_true, List.mem_cons] at hp
      rcases hp with hp | hp
      · subst hp; simp at hc
      · exact List.mem_cons_of_mem a (ih piece hp c hc)
    · simp only [h, if_false] at hp
      cases hs : splitSlash rest with
      | nil => exact absurd hs (splitSlash_ne_nil rest)
      | cons p ps =>
        rw [hs, List.mem_cons] at hp
        rcases hp with hp | hp
        · subst hp
          rcases List.mem_cons.mp hc with h1 | h1
          · exact h1 ▸ List.mem_cons_self a rest
          · exact List.mem_cons_of_mem a (ih p (hs ▸ List.mem_cons_self p ps) c h1)
        · exact List.mem_cons_of_mem a (ih piece (hs ▸ List.mem_cons_of_mem p hp) c hc)

theorem splitSlash_slash_cons (s : Str) : splitSlash ('/' :: s) = [] :: splitSlash s := by
  simp [splitSlash]

theorem splitSlash_no_slash {s : Str} (h : '/' ∉ s) : splitSlash s = [s] := by
  induction s with
  | nil => simp [splitSlash]
  | cons c rest ih =>
    have hc : c ≠ '/' := fun hEq => h (hEq ▸ List.mem_cons_self c rest)
    have hrest : '/' ∉ rest := fun hm => h (List.mem_cons_of_mem c hm)
    unfold splitSlash
    simp only [hc, if_false]
    rw [ih hrest]

theorem splitSlash_append_slash {a b : Str} (h : '/' ∉ a) :
    splitSlash (a ++ '/' :: b) = a :: splitSlash b := by
  induction a with
  | nil => simp [splitSlash]
  | cons c rest ih =>
    have hc : c ≠ '/' := fun hEq => h (hEq ▸ List.mem_cons_self c rest)
    have hrest : '/' ∉ rest := fun hm => h (List.mem_cons_of_mem c hm)
    rw [List.cons_append]
    conv_lhs => unfold splitSlash
    simp only [hc, if_false]
    rw [ih hrest]

theorem splitSlash_append_last_slash (x : Str) :
    splitSlash (x ++ ['/']) = splitSlash x ++ [[]] := by
  induction x with
  | nil => simp [splitSlash]
  | cons c rest ih =>
    by_cases h : c = '/'
    · subst h
      rw [List.cons_append, splitSlash_slash_cons, splitSlash_slash_cons, ih,
        List.cons_append]
    · rw [List.cons_append]
      unfold splitSlash
      simp only [h, if_false]
      rw [ih]
      cases hs : splitSlash rest with
      | nil => exact absurd hs (splitSlash_ne_nil rest)
      | cons p ps => simp

theorem joinSlash_cons_ne_nil {p : Str} {rest : List Str} (h : p ≠ []) :
    joinSlash (p :: rest) ≠ [] := by
  cases rest with
  | nil => simpa [joinSlash] using h
  | cons q qs =>
    simp only [joinSlash]
    intro hEq
    exact absurd (List.append_eq_nil.mp hEq).1 h

theorem joinSlash_cons_shape (p : Str) (rest : List Str) :
    ∃ y, joinSlash (p :: rest) = p ++ y := by
  cases rest with
  | nil => exact ⟨[], by simp [joinSlash]⟩
  | cons q qs => exact ⟨'/' :: joinSlash (q :: qs), by simp [joinSlash]⟩

theorem joinSlash_chars {nc : List Str} {c : Char} (h : c ∈ joinSlash nc) :
    c = '/' ∨ ∃ p ∈ nc, c ∈ p := by
  induction nc with
  | nil => simp [joinSlash] at h
  | cons p rest ih =>
    cases rest with
    | nil =>
      simp only [joinSlash] at h
      exact Or.inr ⟨p, List.mem_cons_self p [], h⟩
    | cons q qs =>
      simp only [joinSlash, List.mem_append, List.mem_cons] at h
      rcases h with h | h | h
      · exact Or.inr ⟨p, List.mem_cons_self p _, h⟩
      · exact Or.inl h
      · rcases ih h with h1 | ⟨r, hr, hcr⟩
        · exact Or.inl h1
        · exact Or.inr ⟨r, List.mem_cons_of_mem p hr, hcr⟩

theorem splitSlash_join {nc : List Str} (h0 : nc ≠ [])
    (hs : ∀ p ∈ nc, '/' ∉ p) : splitSlash (joinSlash nc) = nc := by
  induction nc with
  | nil => exact absurd rfl h0
  | cons p rest ih =>
    cases rest with
    | nil =>
      simp only [joinSlash]
      exact splitSlash_no_slash (hs p (List.mem_cons_self p []))
    | cons q qs =>
      simp only [joinSlash]
      rw [splitSlash_append_slash (hs p (List.mem_cons_self p _))]
      rw [ih (by simp) (fun r hr => hs r (List.mem_cons_of_mem p hr))]

/-! ## `normpath` characterisation -/

theorem accOk_nil (k : Nat) : accOk k [] := by
  refine ⟨by simp, fun _ => ⟨[], 0, by simp⟩, fun _ => by simp⟩

theorem normStep_accOk {k : Nat} {acc : List Str} {comp : Str}
    (h : accOk k acc) (hc : '/' ∉ comp) : accOk k (normStep k acc comp) := by
  obtain ⟨hgood, hrel, habs⟩ := h
  unfold normStep
  by_cases h1 : comp = [] ∨ comp = ['.']
  · simpa [h1] using ⟨hgood, hrel, habs⟩
  · push_neg at h1
    obtain ⟨hne, hnd⟩ := h1
    simp only [hne, hnd, or_self, if_false]
    by_cases h2 : comp ≠ ['.', '.'] ∨ (k = 0 ∧ acc = []) ∨
        (acc ≠ [] ∧ acc.headD [] = ['.', '.'])
    · -- push branch
      rw [if_pos h2]
      refine ⟨?_, ?_, ?_⟩
      · intro s hs
        rcases List.mem_cons.mp hs with hs | hs
        · exact hs ▸ ⟨hne, hnd, hc⟩
        · exact hgood s hs
      · intro hk0
        obtain ⟨fr, m, hacc, hfr⟩ := hrel hk0
        by_cases hdd : comp = ['.', '.']
        · subst hdd
          rcases h2 with h2 | ⟨_, hacc0⟩ | ⟨hne2, hhead⟩
          · exact absurd rfl h2
          · subst hacc0
            exact ⟨[], 1, by simp, by simp⟩
          · -- head of acc is `..`, so fr must be empty
            have hfr0 : fr = [] := by
              cases fr with
              | nil => rfl
              | cons f fr' =>
                exfalso
                rw [hacc] at hhead
                simp only [List.cons_append, List.headD_cons] at hhead
                exact hfr (hhead ▸ List.mem_cons_self f fr')
            subst hfr0
            simp only [List.nil_append] at hacc
            subst hacc
            exact ⟨[], m + 1, by simp [List.replicate_succ], by simp⟩
        · exact ⟨comp :: fr, m, by rw [hacc, List.cons_append], by
            intro hmem
            rcases List.mem_cons.mp hmem with hm | hm
            · exact hdd hm.symm
            · exact hfr hm⟩
      · intro hk
        intro hmem
        rcases List.mem_cons.mp hmem with hm | hm
        · -- comp = ".." pushed under k ≠ 0: only via the head-".." disjunct,
          -- impossible since acc has no ".."
          rcases h2 with h2 | ⟨hk0, _⟩ | ⟨hne2, hhead⟩
          · exact h2 hm.symm
          · exact hk hk0
          · apply habs hk
            cases acc with
            | nil => exact absurd rfl hne2
            | cons a rest =>
              simp only [List.headD_cons] at hhead
              exact hhead ▸ List.mem_cons_self a rest
        · exact habs hk hm
    · -- pop branch
      rw [if_neg h2]
      push_neg at h2
      obtain ⟨hdd, hnotroot, hnothead⟩ := h2
      refine ⟨fun s hs => hgood s (mem_tail hs), ?_, ?_⟩
      · intro hk0
        obtain ⟨fr, m, hacc, hfr⟩ := hrel hk0
        cases acc with
        | nil => exact absurd rfl (hnotroot hk0)
        | cons a rest =>
          have hhead : a ≠ ['.', '.'] := by
            have := hnothead (by simp)
            simpa using this
          cases fr with
          | nil =>
            -- acc = replicate m ".." with head ≠ "..": forces m = 0, acc = [],
            -- contradiction
            exfalso
            simp only [List.nil_append] at hacc
            cases m with
            | zero => simp at hacc
            | succ m' =>
              rw [List.replicate_succ] at hacc
              exact hhead (List.cons_eq_cons.mp hacc).1
          | cons f fr' =>
            rw [List.cons_append] at hacc
            refine ⟨fr', m, (List.cons_eq_cons.mp hacc).2, fun hm =>
              hfr (List.mem_cons_of_mem f hm)⟩
      · intro hk hmem
        exact habs hk (mem_tail hmem)

theorem foldl_normStep_accOk {k : Nat} {comps : List Str} {acc : List Str}
    (ha : accOk k acc) (hc : ∀ s ∈ comps, '/' ∉ s) :
    accOk k (comps.foldl (normStep k) acc) := by
  induction comps generalizing acc with
  | nil => simpa using ha
  | cons c rest ih =>
    rw [List.foldl_cons]
    exact ih (normStep_accOk ha (hc c (List.mem_cons_self c rest)))
      (fun s hs => hc s (List.mem_cons_of_mem c hs))

theorem normStep_mem {k : Nat} {acc : List Str} {comp s : Str}
    (h : s ∈ normStep k acc comp) : s ∈ acc ∨ s = comp := by
  unfold normStep at h
  split at h
  · exact Or.inl h
  · split at h
    · rcases List.mem_cons.mp h with h | h
      · exact Or.inr h
      · exact Or.inl h
    · exact Or.inl (mem_tail h)

theorem foldl_normStep_mem {k : Nat} {comps : List Str} {acc : List Str} {s : Str}
    (h : s ∈ comps.foldl (normStep k) acc) : s ∈ acc ∨ s ∈ comps := by
  induction comps generalizing acc with
  | nil => exact Or.inl (by simpa using h)
  | cons c rest ih =>
    rw [List.foldl_cons] at h
    rcases ih h with h1 | h1
    · rcases normStep_mem h1 with h2 | h2
      · exact Or.inl h2
      · exact Or.inr (h2 ▸ List.mem_cons_self c rest)
    · exact Or.inr (List.mem_cons_of_mem c h1)

theorem foldl_normStep_all_push {k : Nat} {comps acc : List Str}
    (h : ∀ s ∈ comps, s ≠ [] ∧ s ≠ ['.'] ∧ s ≠ ['.', '.']) :
    comps.foldl (normStep k) acc = comps.reverse ++ acc := by
  induction comps generalizing acc with
  | nil => simp
  | cons c rest ih =>
    obtain ⟨h1, h2, h3⟩ := h c (List.mem_cons_self c rest)
    rw [List.foldl_cons]
    have hstep : normStep k acc c = c :: acc := by
      unfold normStep
      rw [if_neg (by simp [h1, h2]), if_pos (Or.inl h3)]
    rw [hstep, ih (fun s hs => h s (List.mem_cons_of_mem c hs))]
    simp

theorem foldl_normStep_skip {k : Nat} {comps acc : List Str}
    (h : ∀ s ∈ comps, s = [] ∨ s = ['.']) :
    comps.foldl (normStep k) acc = acc := by
  induction comps generalizing acc with
  | nil => simp
  | cons c rest ih =>
    rw [List.foldl_cons]
    have hstep : normStep k acc c = acc := by
      unfold normStep
      rw [if_pos (h c (List.mem_cons_self c rest))]
    rw [hstep]
    exact ih (fun s hs => h s (List.mem_cons_of_mem c hs))

theorem foldl_normStep_dotdots (m j : Nat) :
    (List.replicate m ['.', '.']).foldl (normStep 0) (List.replicate j ['.', '.']) =
      List.replicate (m + j) ['.', '.'] := by
  induction m generalizing j with
  | zero => simp
  | succ m' ih =>
    rw [List.replicate_succ, List.foldl_cons]
    have hstep : normStep 0 (List.replicate j ['.', '.']) ['.', '.'] =
        List.replicate (j + 1) ['.', '.'] := by
      unfold normStep
      rw [if_neg (by simp)]
      cases j with
      | zero => rw [if_pos (Or.inr (Or.inl ⟨rfl, by simp⟩))]; simp
      | succ j' =>
        rw [if_pos (Or.inr (Or.inr ⟨by simp, by simp [List.replicate_succ]⟩))]
        simp [List.replicate_succ]
    rw [hstep, ih (j + 1)]
    congr 1
    omega

/-- `normpath` on a nonempty path, with the lets spelled out. -/
theorem normpath_eq (x : Str) (hx : x ≠ []) :
    normpath x =
      (if List.replicate (initialSlashes x) '/' ++
          joinSlash (((splitSlash x).foldl (normStep (initialSlashes x)) []).reverse) = []
       then ['.']
       else List.replicate (initialSlashes x) '/' ++
          joinSlash (((splitSlash x).foldl (normStep (initialSlashes x)) []).reverse)) := by
  unfold normpath
  rw [if_neg hx]

theorem initialSlashes_le_two (x : Str) : initialSlashes x ≤ 2 := by
  unfold initialSlashes
  split
  · split <;> omega
  · omega

theorem initialSlashes_pos {x : Str} (h : x.take 1 = ['/']) : initialSlashes x ≠ 0 := by
  unfold initialSlashes
  rw [if_pos h]
  split <;> omega

theorem normpath_normalOut (x : Str) (hx : x ≠ []) :
    NormalOut (initialSlashes x) (normpath x) := by
  have hacc : accOk (initialSlashes x)
      ((splitSlash x).foldl (normStep (initialSlashes x)) []) :=
    foldl_normStep_accOk (accOk_nil _) (fun s hs => splitSlash_piece_no_slash s hs)
  rw [normpath_eq x hx]
  obtain ⟨hgood, hrel, habs⟩ := hacc
  by_cases hacccase : (splitSlash x).foldl (normStep (initialSlashes x)) [] = []
  · rw [hacccase]
    simp only [List.reverse_nil, joinSlash, List.append_nil]
    by_cases hk0 : initialSlashes x = 0
    · rw [hk0]
      simp only [List.replicate_zero, if_pos rfl]
      exact Or.inl ⟨rfl, rfl⟩
    · rw [if_neg (by
        intro hEq
        cases hkv : initialSlashes x with
        | zero => exact hk0 hkv
        | succ k' => rw [hkv] at hEq; simp [List.replicate_succ] at hEq)]
      exact Or.inr (Or.inl ⟨hk0, rfl⟩)
  · have hnc0 : ((splitSlash x).foldl (normStep (initialSlashes x)) []).reverse ≠ [] := by
      simpa using hacccase
    have hgood' : ∀ s ∈ ((splitSlash x).foldl (normStep (initialSlashes x)) []).reverse,
        goodSeg s := by
      intro s hs
      exact hgood s (List.mem_reverse.mp hs)
    have hp0 : List.replicate (initialSlashes x) '/' ++
        joinSlash (((splitSlash x).foldl (normStep (initialSlashes x)) []).reverse) ≠ [] := by
      intro hEq
      obtain ⟨h1, h2⟩ := List.append_eq_nil.mp hEq
      obtain ⟨n0, ns, hncc⟩ := List.exists_cons_of_ne_nil hnc0
      rw [hncc] at h2
      exact joinSlash_cons_ne_nil (hgood' n0 (hncc ▸ List.mem_cons_self n0 ns)).1 h2
    rw [if_neg hp0]
    refine Or.inr (Or.inr ⟨_, hnc0, hgood', ?_, ?_, rfl⟩)
    · intro hk0
      obtain ⟨fr, m, hAcc, hfr⟩ := hrel hk0
      refine ⟨m, fr.reverse, ?_, ?_⟩
      · rw [hAcc, List.reverse_append, List.reverse_replicate]
      · intro hmem
        exact hfr (List.mem_reverse.mp hmem)
    · intro hk0 hmem
      exact habs hk0 (List.mem_reverse.mp hmem)

/-- Compute `normpath` of a string whose split is `k` empty pieces, the
segments `nc`, and a tail of ignorable pieces. -/
theorem normpath_by_comps {x : Str} {k : Nat} {nc tl : List Str}
    (hx : x ≠ []) (hki : initialSlashes x = k)
    (hsplit : splitSlash x = List.replicate k [] ++ nc ++ tl)
    (h0 : nc ≠ []) (hg : ∀ s ∈ nc, goodSeg s)
    (hrel : k = 0 → ∃ m rest, nc = List.replicate m ['.', '.'] ++ rest ∧ ['.', '.'] ∉ rest)
    (habs : k ≠ 0 → ['.', '.'] ∉ nc)
    (htl : ∀ s ∈ tl, s = [] ∨ s = ['.']) :
    normpath x = List.replicate k '/' ++ joinSlash nc := by
  rw [normpath_eq x hx, hki, hsplit]
  have hfold : ((List.replicate k [] ++ nc ++ tl).foldl (normStep k) []) = nc.reverse := by
    rw [List.foldl_append, List.foldl_append]
    rw [foldl_normStep_skip htl]
    by_cases hk0 : k = 0
    · subst hk0
      simp only [List.replicate_zero, List.foldl_nil]
      obtain ⟨m, rest, hncEq, hrest⟩ := hrel rfl
      subst hncEq
      rw [List.foldl_append]
      rw [foldl_normStep_all_push (by
        intro s hs
        have hsm : s ∈ List.replicate m ['.', '.'] ++ rest := List.mem_append_right _ hs
        obtain ⟨g1, g2, _⟩ := hg s hsm
        exact ⟨g1, g2, fun hEq => hrest (hEq ▸ hs)⟩)]
      rw [show (List.replicate m ['.', '.']).foldl (normStep 0) [] =
          List.replicate m ['.', '.'] from by
        have := foldl_normStep_dotdots m 0
        simpa using this]
      rw [List.reverse_append, List.reverse_replicate]
    · rw [foldl_normStep_all_push (by
        intro s hs
        obtain ⟨g1, g2, _⟩ := hg s hs
        exact ⟨g1, g2, fun hEq => (habs hk0) (hEq ▸ hs)⟩)]
      rw [foldl_normStep_skip (by
        intro s hs
        exact Or.inl (List.eq_of_mem_replicate hs))]
      simp
  rw [hfold, List.reverse_reverse]
  have hp0 : List.replicate k '/' ++ joinSlash nc ≠ [] := by
    intro hEq
    obtain ⟨h1, h2⟩ := List.append_eq_nil.mp hEq
    cases hncc : nc with
    | nil => exact h0 hncc
    | cons n0 ns =>
      rw [hncc] at h2
      exact joinSlash_cons_ne_nil (hg n0 (hncc ▸ List.mem_cons_self n0 ns)).1 h2
  rw [if_neg hp0]

theorem initialSlashes_rep_cons {k : Nat} (hk : k ≤ 2) {c0 : Char} (hc : c0 ≠ '/')
    (z : Str) : initialSlashes (List.replicate k '/' ++ c0 :: z) = k := by
  interval_cases k
  · simp only [List.replicate_zero, List.nil_append]
    unfold initialSlashes
    rw [if_neg (by simp [hc])]
  · simp only [List.replicate_succ, List.replicate_zero, List.cons_append, List.nil_append]
    unfold initialSlashes
    rw [if_pos (by simp)]
    rw [if_neg (by simp [hc])]
  · simp only [List.replicate_succ, List.replicate_zero, List.cons_append, List.nil_append]
    unfold initialSlashes
    rw [if_pos (by simp)]
    rw [if_pos (by simp [hc])]

theorem splitSlash_rep_join {k : Nat} (hk : k ≤ 2) {nc : List Str} (h0 : nc ≠ [])
    (hs : ∀ p ∈ nc, '/' ∉ p) :
    splitSlash (List.replicate k '/' ++ joinSlash nc) = List.replicate k [] ++ nc := by
  interval_cases k
  · simpa using splitSlash_join h0 hs
  · simp only [List.replicate_succ, List.replicate_zero, List.cons_append, List.nil_append]
    rw [splitSlash_slash_cons, splitSlash_join h0 hs]
  · simp only [List.replicate_succ, List.replicate_zero, List.cons_append, List.nil_append]
    rw [splitSlash_slash_cons, splitSlash_slash_cons, splitSlash_join h0 hs]

theorem normpath_stable {k : Nat} {q : Str} (hk : k ≤ 2) (h : NormalOut k q) :
    normpath q = q := by
  rcases h with ⟨_, hq⟩ | ⟨hk0, hq⟩ | ⟨nc, h0, hg, hrel, habs, hq⟩
  · subst hq; decide
  · subst hq
    interval_cases k
    · exact absurd rfl hk0
    · decide
    · decide
  · subst hq
    obtain ⟨n0, ns, hncc⟩ := List.exists_cons_of_ne_nil h0
    obtain ⟨hn0ne, -, hn0sl⟩ := hg n0 (hncc ▸ List.mem_cons_self n0 ns)
    obtain ⟨c0, cs, hn0c⟩ := List.exists_cons_of_ne_nil hn0ne
    have hc0 : c0 ≠ '/' := fun hEq => hn0sl (hn0c ▸ hEq ▸ List.mem_cons_self c0 cs)
    obtain ⟨y, hy⟩ := joinSlash_cons_shape n0 ns
    have hshape : joinSlash nc = c0 :: (cs ++ y) := by
      rw [hncc, hy, hn0c, List.cons_append]
    refine normpath_by_comps ?_ ?_ ?_ h0 hg hrel habs
      (fun s hs => absurd hs (List.not_mem_nil s))
    · rw [hshape]
      intro hEq
      obtain ⟨-, h2⟩ := List.append_eq_nil.mp hEq
      simp at h2
    · rw [hshape]
      exact initialSlashes_rep_cons hk hc0 _
    · rw [List.append_nil]
      exact splitSlash_rep_join hk h0 (fun p hp => (hg p hp).2.2)

theorem normpath_idem (x : Str) : normpath (normpath x) = normpath x := by
  by_cases hx : x = []
  · subst hx; decide
  · exact normpath_stable (initialSlashes_le_two x) (normpath_normalOut x hx)

/-- `normpath` introduces no characters beyond `/` and `.`. -/
theorem normpath_chars {x : Str} {c : Char} (h : c ∉ x) (h2 : c ≠ '/') (h3 : c ≠ '.') :
    c ∉ normpath x := by
  by_cases hx : x = []
  · subst hx
    intro hmem
    rw [show normpath [] = ['.'] from rfl] at hmem
    exact h3 (by simpa using hmem)
  · rw [normpath_eq x hx]
    split

    · intro hmem
      exact h3 (by simpa using hmem)
    · intro hmem
      rcases List.mem_append.mp hmem with hm | hm
      · exact h2 (List.eq_of_mem_replicate hm)
      · rcases joinSlash_chars hm with hm1 | ⟨p, hp, hcp⟩
        · exact h2 hm1
        · have hp' := List.mem_reverse.mp hp
          rcases foldl_normStep_mem hp' with hp2 | hp2
          · simp at hp2
          · exact h (splitSlash_piece_chars p hp2 c hcp)

/-- An absolute path stays absolute under `normpath`. -/
theorem normpath_abs_take1 {x : Str} (h : x.take 1 = ['/']) :
    (normpath x).take 1 = ['/'] := by
  have hx : x ≠ [] := by intro hEq; rw [hEq] at h; simp at h
  have hk0 := initialSlashes_pos h
  have hk2 := initialSlashes_le_two x
  rcases normpath_normalOut x hx with ⟨hz, _⟩ | ⟨_, hq⟩ | ⟨nc, h0, hg, _, _, hq⟩
  · exact absurd hz hk0
  · rw [hq]
    cases hkv : initialSlashes x with
    | zero => exact absurd hkv hk0
    | succ k' => simp [List.replicate_succ]
  · rw [hq]
    cases hkv : initialSlashes x with
    | zero => exact absurd hkv hk0
    | succ k' => simp [List.replicate_succ]

/-- `normpath` of an absolute path contains no `..` segment: the
normalisation never ascends above the root. -/
theorem normpath_abs_no_dotdot {x : Str} (h : x.take 1 = ['/']) :
    ['.', '.'] ∉ splitSlash (normpath x) := by
  have hx : x ≠ [] := by intro hEq; rw [hEq] at h; simp at h
  have hk0 := initialSlashes_pos h
  have hk2 := initialSlashes_le_two x
  rcases normpath_normalOut x hx with ⟨hz, _⟩ | ⟨_, hq⟩ | ⟨nc, h0, hg, _, habs, hq⟩
  · exact absurd hz hk0
  · rw [hq]
    have : initialSlashes x = 1 ∨ initialSlashes x = 2 := by omega
    rcases this with h1 | h1 <;> rw [h1] <;> decide
  · rw [hq, splitSlash_rep_join hk2 h0 (fun p hp => (hg p hp).2.2)]
    intro hmem
    rcases List.mem_append.mp hmem with hm | hm
    · have hcontra : (['.', '.'] : Str) = [] := List.eq_of_mem_replicate hm
      simp at hcontra
    · exact habs hk0 hm

/-- A `..` right at the root is discarded with no further effect. -/
theorem normpath_root_dotdot {p : Str} (h : p.take 1 ≠ ['/']) :
    normpath ('/' :: '.' :: '.' :: '/' :: p) = normpath ('/' :: p) := by
  have hslashL : initialSlashes ('/' :: '.' :: '.' :: '/' :: p) = 1 := by
    unfold initialSlashes
    rw [if_pos (by simp)]
    rw [if_neg (by simp)]
  have hslashR : initialSlashes ('/' :: p) = 1 := by
    unfold initialSlashes
    rw [if_pos (by simp)]
    rw [if_neg (by
      intro ⟨h1, _⟩
      cases hp : p with
      | nil => rw [hp] at h1; simp at h1
      | cons c cs =>
        rw [hp] at h1
        simp only [List.take, List.cons.injEq] at h1
        exact h (by rw [hp]; simp [h1.2.1]))]
  have hsplitL : splitSlash ('/' :: '.' :: '.' :: '/' :: p) =
      [] :: ['.', '.'] :: splitSlash p := by
    rw [splitSlash_slash_cons]
    rw [show ('.' :: '.' :: '/' :: p) = (['.', '.'] ++ '/' :: p) from rfl]
    rw [splitSlash_append_slash (by decide)]
  have hsplitR : splitSlash ('/' :: p) = [] :: splitSlash p :=
    splitSlash_slash_cons p
  rw [normpath_eq _ (by simp), normpath_eq _ (by simp), hslashL, hslashR, hsplitL, hsplitR]
  have hfold : (([] :: ['.', '.'] :: splitSlash p).foldl (normStep 1) []) =
      (([] :: splitSlash p).foldl (normStep 1) []) := by
    rw [List.foldl_cons, List.foldl_cons, List.foldl_cons]
    have h1 : normStep 1 [] [] = [] := by
      unfold normStep
      rw [if_pos (Or.inl rfl)]
    have h2 : normStep 1 [] ['.', '.'] = [] := by
      unfold normStep
      rw [if_neg (by simp)]
      rw [if_neg (by simp)]
      rfl
    rw [h1, h2]
  rw [hfold]

/-- Appending a trailing slash to a nonempty canonical absolute path
(other than the pure slash-runs) does not change its canonical form:
`normpath (q ++ "/") = q`. -/
theorem normpath_trailing_slash {q : Str} (hstable : normpath q = q)
    (habs1 : q.take 1 = ['/']) (hq1 : q ≠ ['/']) (hq2 : q ≠ ['/', '/']) :
    normpath (q ++ ['/']) = q := by
  have hqne : q ≠ [] := by intro hEq; rw [hEq] at habs1; simp at habs1
  have hk0 : initialSlashes q ≠ 0 := initialSlashes_pos habs1
  have hk2 := initialSlashes_le_two q
  have hno := normpath_normalOut q hqne
  rw [hstable] at hno
  rcases hno with ⟨hz, _⟩ | ⟨_, hq⟩ | ⟨nc, h0, hg, hrel, habs, hq⟩
  · exact absurd hz hk0
  · exfalso
    have : initialSlashes q = 1 ∨ initialSlashes q = 2 := by omega
    rcases this with h1 | h1
    · rw [h1] at hq; exact hq1 (by simpa using hq)
    · rw [h1] at hq; exact hq2 (by simpa [List.replicate_succ] using hq)
  · obtain ⟨n0, ns, hncc⟩ := List.exists_cons_of_ne_nil h0
    obtain ⟨hn0ne, -, hn0sl⟩ := hg n0 (hncc ▸ List.mem_cons_self n0 ns)
    obtain ⟨c0, cs, hn0c⟩ := List.exists_cons_of_ne_nil hn0ne
    have hc0 : c0 ≠ '/' := fun hEq => hn0sl (hn0c ▸ hEq ▸ List.mem_cons_self c0 cs)
    obtain ⟨y, hy⟩ := joinSlash_cons_shape n0 ns
    have hshape : joinSlash nc = c0 :: (cs ++ y) := by
      rw [hncc, hy, hn0c, List.cons_append]
    have hki : initialSlashes (q ++ ['/']) = initialSlashes q := by
      conv_lhs => rw [hq, hshape, List.append_assoc, List.cons_append]
      exact initialSlashes_rep_cons hk2 hc0 _
    have hsp : splitSlash (q ++ ['/']) =
        List.replicate (initialSlashes q) [] ++ nc ++ [[]] := by
      conv_lhs => rw [hq]
      rw [splitSlash_append_last_slash,
        splitSlash_rep_join hk2 h0 (fun p hp => (hg p hp).2.2)]
    have hx : normpath (q ++ ['/']) = List.replicate (initialSlashes q) '/' ++ joinSlash nc := by
      refine normpath_by_comps ?_ hki hsp h0 hg hrel habs
        (fun s hs => Or.inl (List.mem_singleton.mp hs))
      intro hEq
      obtain ⟨-, h2⟩ := List.append_eq_nil.mp hEq
      simp at h2
    rw [hx, ← hq]

/-! ## Traversal invariants -/

theorem mem_setAdd {x y : Str} {l : List Str} (h : y ∈ setAdd x l) : y = x ∨ y ∈ l := by
  unfold setAdd at h
  split at h
  · exact Or.inr h
  · rcases List.mem_cons.mp h with h | h
    · exact Or.inl h
    · exact Or.inr h

theorem subset_setAdd (x : Str) (l : List Str) : ∀ y ∈ l, y ∈ setAdd x l := by
  intro y hy
  unfold setAdd
  split
  · exact hy
  · exact List.mem_cons_of_mem x hy

theorem mem_setAdd_self (x : Str) (l : List Str) : x ∈ setAdd x l := by
  unfold setAdd
  split
  · assumption
  · exact List.mem_cons_self x l

theorem nodup_append_single {l : List Str} {x : Str} (h : l.Nodup) (hx : x ∉ l) :
    (l ++ [x]).Nodup := by
  rw [List.nodup_append]
  refine ⟨h, List.nodup_singleton x, ?_⟩
  intro a ha hax
  rw [List.mem_singleton] at hax
  subst hax
  exact hx ha

/-- One loop body of `crawl` either leaves the state unchanged (an
exception), records the link as seen, or recurses through `visit` from
the seen-updated state. -/
theorem processLink_cases (base : Str) (visit : CrawlState → Str → CrawlState × Bool)
    (current_url : Str) (s : CrawlState) (link : Str) :
    (∃ b, processLink base visit current_url s link = (s, b)) ∨
    (∃ fl, processLink base visit current_url s link =
      ({ s with seen := setAdd fl s.seen }, true)) ∨
    (∃ fl, processLink base visit current_url s link =
      visit { s with seen := setAdd fl s.seen } fl) := by
  unfold processLink
  dsimp only
  cases absolute_link base current_url (link.takeWhile (fun c => c ≠ '#')) with
  | error e => exact Or.inl ⟨false, rfl⟩
  | ok full_link =>
    dsimp only
    cases urlparse full_link with
    | error e => exact Or.inl ⟨false, rfl⟩
    | ok parsed_link =>
      dsimp only
      cases is_current_domain base parsed_link with
      | error e => exact Or.inl ⟨false, rfl⟩
      | ok sameDomain =>
        dsimp only
        by_cases hsd : ¬ sameDomain = true
        · rw [if_pos hsd]
          exact Or.inr (Or.inl ⟨full_link, rfl⟩)
        · rw [if_neg hsd]
          by_cases hcr : is_crawlable s.seen full_link parsed_link = true
          · rw [if_pos hcr]
            exact Or.inr (Or.inr ⟨full_link, rfl⟩)
          · rw [if_neg hcr]
            exact Or.inr (Or.inl ⟨full_link, rfl⟩)

/-- The loop over a page's links preserves the no-refetch invariant and
never removes a URL from `visited`, provided `visit` does. -/
theorem processLinks_inv {base current_url : Str}
    {visit : CrawlState → Str → CrawlState × Bool}
    (hv : ∀ s url, FetchInv s → FetchInv (visit s url).1 ∧
      s.visited ⊆ (visit s url).1.visited)
    (ls : List Str) :
    ∀ s : CrawlState, FetchInv s →
      FetchInv (processLinks base visit current_url s ls).1 ∧
      s.visited ⊆ (processLinks base visit current_url s ls).1.visited := by
  induction ls with
  | nil =>
    intro s hs
    exact ⟨hs, fun y hy => hy⟩
  | cons l rest ih =>
    intro s hs
    unfold processLinks
    rcases processLink_cases base visit current_url s l with ⟨b, hb⟩ | ⟨fl, hb⟩ | ⟨fl, hb⟩
    · rw [hb]
      cases b
      · exact ⟨hs, fun y hy => hy⟩
      · exact ih s hs
    · rw [hb]
      exact ih _ hs
    · rw [hb]
      have h1 := hv { s with seen := setAdd fl s.seen } fl hs
      rcases hres : visit { s with seen := setAdd fl s.seen } fl with ⟨sv, bv⟩
      rw [hres] at h1
      cases bv
      · exact ⟨h1.1, h1.2⟩
      · obtain ⟨hv1, hv2⟩ := ih sv h1.1
        exact ⟨hv1, fun y hy => hv2 (h1.2 hy)⟩

/-- `crawl` preserves the no-refetch invariant and only grows
`visited`. -/
theorem crawlVisit_inv (links : Str → List Str) (base : Str) :
    ∀ (fuel : Nat) (s : CrawlState) (url : Str), FetchInv s →
      FetchInv (crawlVisit links base fuel s url).1 ∧
      s.visited ⊆ (crawlVisit links base fuel s url).1.visited := by
  intro fuel
  induction fuel with
  | zero =>
    intro s url hs
    exact ⟨hs, fun y hy => hy⟩
  | succ n ih =>
    intro s url hs
    unfold crawlVisit
    by_cases hvis : url ∈ s.visited
    · rw [if_pos hvis]
      exact ⟨hs, fun y hy => hy⟩
    · rw [if_neg hvis]
      have hinv2 : FetchInv ⟨setAdd url s.visited, s.seen, s.fetched ++ [url]⟩ := by
        constructor
        · exact nodup_append_single hs.1 (fun hmem => hvis (hs.2 _ hmem))
        · intro x hx
          rcases List.mem_append.mp hx with hx | hx
          · exact subset_setAdd url s.visited x (hs.2 x hx)
          · rw [List.mem_singleton.mp hx]
            exact mem_setAdd_self url s.visited
      obtain ⟨h1, h2⟩ := processLinks_inv (fun p v hp => ih p v hp) (links url) _ hinv2
      exact ⟨h1, fun y hy => h2 (subset_setAdd url s.visited y hy)⟩

/-! ## Bracket-freedom: exception-free processing (C8) -/

theorem mem_cleanUrl {u : Str} {c : Char} (h : c ∈ cleanUrl u) : c ∈ u := by
  unfold cleanUrl at h
  exact mem_dropWhile (List.mem_of_mem_filter h)

theorem mem_cleanScheme {s : Str} {c : Char} (h : c ∈ cleanScheme s) : c ∈ s := by
  unfold cleanScheme at h
  have h1 := List.mem_of_mem_filter h
  rw [List.mem_reverse] at h1
  have h2 := mem_dropWhile h1
  rw [List.mem_reverse] at h2
  exact mem_dropWhile h2

theorem urlsplitRaw_scheme_subset (d u : Str) :
    ∀ c ∈ (urlsplitRaw d u).scheme,
      c ∈ cleanScheme d ∨ ∃ x ∈ cleanUrl u, asciiLower x = c := by
  obtain ⟨scheme, url1, netloc, url2, hs, hn, hEq⟩ := urlsplitRaw_shape d u
  rw [hEq]
  intro c hc
  rcases hs with hs | ⟨_, hd, _⟩
  · obtain ⟨pre, hmap, _, _, _, hsub, _⟩ := schemeSplit_some hs
    rw [hmap] at hc
    obtain ⟨x, hx, hEq2⟩ := List.mem_map.mp hc
    exact Or.inr ⟨x, hsub x hx, hEq2⟩
  · rw [hd] at hc
    exact Or.inl hc

theorem urlparseWith_ok_of_no_brackets {d u : Str} (h1 : '[' ∉ u) (h2 : ']' ∉ u) :
    urlparseWith d u = .ok (paramsSplit (urlsplitRaw d u)) := by
  unfold urlparseWith urlsplit
  rw [if_neg ?_]
  · rfl
  · intro hmis
    rcases hmis with ⟨ha, _⟩ | ⟨ha, _⟩
    · exact h1 (mem_cleanUrl ((urlsplitRaw_components_subset d u).1 _ ha))
    · exact h2 (mem_cleanUrl ((urlsplitRaw_components_subset d u).1 _ ha))

/-- A character absent from the input, the default scheme, and the
lowercase range is absent from every component of a successful parse. -/
theorem urlparseWith_no_char {d u : Str} {t : ParseResult} {c : Char}
    (h : urlparseWith d u = .ok t) (hu : c ∉ u) (hd : c ∉ d)
    (hlow : ¬ (97 ≤ c.toNat ∧ c.toNat ≤ 122)) :
    c ∉ t.scheme ∧ c ∉ t.netloc ∧ c ∉ t.path ∧ c ∉ t.params ∧
      c ∉ t.query ∧ c ∉ t.fragment := by
  have ht : t = paramsSplit (urlsplitRaw d u) := by
    unfold urlparseWith urlsplit at h
    dsimp only at h
    by_cases hb : bracketMismatch (urlsplitRaw d u).netloc
    · rw [if_pos hb] at h
      exact absurd h (by simp [Except.map])
    · rw [if_neg hb] at h
      simp only [Except.map] at h
      injection h with h
      exact h.symm
  subst ht
  obtain ⟨hnet_sub, hpath_sub, hq_sub, hf_sub⟩ := urlsplitRaw_components_subset d u
  refine ⟨?_, ?_, ?_, ?_, ?_, ?_⟩
  · rw [paramsSplit_scheme]
    intro hc
    rcases urlsplitRaw_scheme_subset d u c hc with h0 | ⟨x, hx, hEq⟩
    · exact hd (mem_cleanScheme h0)
    · exact hu (mem_cleanUrl ((asciiLower_eq_imp hEq hlow) ▸ hx))
  · rw [paramsSplit_netloc]
    intro hc
    exact hu (mem_cleanUrl (hnet_sub c hc))
  · intro hc
    exact hu (mem_cleanUrl (hpath_sub c (paramsSplit_path_subset _ c hc)))
  · intro hc
    exact hu (mem_cleanUrl (hpath_sub c (paramsSplit_params_subset _ c hc)))
  · rw [paramsSplit_query]
    intro hc
    exact hu (mem_cleanUrl (hq_sub c hc))
  · rw [paramsSplit_fragment]
    intro hc
    exact hu (mem_cleanUrl (hf_sub c hc))

theorem getLastD_mem (l : List Str) (d : Str) (h : l ≠ []) : l.getLastD d ∈ l := by
  rw [List.getLastD_eq_getLast?, List.getLast?_eq_getLast l h]
  simp only [Option.getD_some]
  exact List.getLast_mem h

theorem filterMiddle_mem {l : List Str} : ∀ p ∈ filterMiddle l, p ∈ l := by
  match l with
  | [] =>
    intro p hp
    simp [filterMiddle] at hp
  | [a] =>
    intro p hp
    simp only [filterMiddle] at hp
    exact hp
  | a :: b :: rest =>
    intro p hp
    rw [show filterMiddle (a :: b :: rest) =
      a :: (((b :: rest).dropLast.filter (fun s => s ≠ [])) ++
        [(b :: rest).getLastD []]) from rfl] at hp
    rcases List.mem_cons.mp hp with hp | hp
    · rw [hp]
      exact List.mem_cons_self _ _
    · rcases List.mem_append.mp hp with hp | hp
      · exact List.mem_cons_of_mem a (mem_dropLast (List.mem_of_mem_filter hp))
      · rw [List.mem_singleton.mp hp]
        exact List.mem_cons_of_mem a (getLastD_mem (b :: rest) [] (by simp))

theorem joinStep_mem {acc : List Str} {seg piece : Str} (h : piece ∈ joinStep acc seg) :
    piece ∈ acc ∨ piece = seg := by
  unfold joinStep at h
  split at h
  · exact Or.inl (mem_tail h)
  · split at h
    · exact Or.inl h
    · rcases List.mem_cons.mp h with h | h
      · exact Or.inr h
      · exact Or.inl h

theorem foldl_joinStep_mem {segs : List Str} :
    ∀ {acc : List Str} {piece : Str}, piece ∈ segs.foldl joinStep acc →
      piece ∈ acc ∨ piece ∈ segs := by
  induction segs with
  | nil =>
    intro acc piece h
    exact Or.inl h
  | cons s rest ih =>
    intro acc piece h
    rw [List.foldl_cons] at h
    rcases ih h with h | h
    · rcases joinStep_mem h with h | h
      · exact Or.inl h
      · rw [h]
        exact Or.inr (List.mem_cons_self _ _)
    · exact Or.inr (List.mem_cons_of_mem s h)

/-- Characters of the path `urljoin` builds by walking segments all come
from the two paths being merged, or are `/`. -/
theorem urljoin_path_chars {bp tp : Str} {c : Char}
    (hb : c ∉ bp) (ht : c ∉ tp) (hslash : c ≠ '/') (segments : List Str)
    (hseg : ∀ piece ∈ segments, ∀ x ∈ piece, x ∈ bp ∨ x ∈ tp) :
    c ∉ joinSlash (if segments.getLastD [] = ['.'] ∨ segments.getLastD [] = ['.', '.']
      then (segments.foldl joinStep []).reverse ++ [[]]
      else (segments.foldl joinStep []).reverse) := by
  intro hmem
  rcases joinSlash_chars hmem with h | ⟨p, hp, hcp⟩
  · exact hslash h
  · have hp2 : p ∈ (segments.foldl joinStep []).reverse ∨ p = [] := by
      split at hp
      · rcases List.mem_append.mp hp with hp | hp
        · exact Or.inl hp
        · exact Or.inr (List.mem_singleton.mp hp)
      · exact Or.inl hp
    rcases hp2 with hp2 | hp2
    · rw [List.mem_reverse] at hp2
      rcases foldl_joinStep_mem hp2 with h0 | h0
      · simp at h0
      · rcases hseg p h0 c hcp with h | h
        · exact hb h
        · exact ht h
    · rw [hp2] at hcp
      simp at hcp

/-- The four shapes of `urljoin`'s pure core, with the provenance of
each component. -/
theorem urljoinCore_cases (b t : ParseResult) (url : Str) :
    urljoinCore b t url = url ∨
    urljoinCore b t url =
      urlunparse ⟨t.scheme, t.netloc, t.path, t.params, t.query, t.fragment⟩ ∨
    (∃ (n q : Str), (n = t.netloc ∨ n = b.netloc) ∧ (q = t.query ∨ q = b.query) ∧
      urljoinCore b t url =
        urlunparse ⟨t.scheme, n, b.path, b.params, q, t.fragment⟩) ∨
    (∃ (n : Str) (segments : List Str), (n = t.netloc ∨ n = b.netloc) ∧
      (∀ piece ∈ segments, ∀ x ∈ piece, x ∈ b.path ∨ x ∈ t.path) ∧
      urljoinCore b t url = urlunparse ⟨t.scheme, n,
        (if joinSlash (if segments.getLastD [] = ['.'] ∨ segments.getLastD [] = ['.', '.']
            then (segments.foldl joinStep []).reverse ++ [[]]
            else (segments.foldl joinStep []).reverse) = []
         then ['/']
         else joinSlash (if segments.getLastD [] = ['.'] ∨ segments.getLastD [] = ['.', '.']
            then (segments.foldl joinStep []).reverse ++ [[]]
            else (segments.foldl joinStep []).reverse)),
        t.params, t.query, t.fragment⟩) := by
  by_cases hc1 : t.scheme ≠ b.scheme ∨ t.scheme ∉ uses_relative
  · left
    unfold urljoinCore
    rw [if_pos hc1]
  · by_cases hc2 : t.scheme ∈ uses_netloc ∧ t.netloc ≠ []
    · refine Or.inr (Or.inl ?_)
      unfold urljoinCore
      rw [if_neg hc1]
      dsimp only
      rw [if_pos hc2]
    · by_cases hc3 : t.path = [] ∧ t.params = []
      · refine Or.inr (Or.inr (Or.inl
          ⟨(if t.scheme ∈ uses_netloc then
              (if t.netloc ≠ [] then t.netloc else b.netloc) else t.netloc),
           (if t.query = [] then b.query else t.query), ?_, ?_, ?_⟩))
        · split
          · split
            · exact Or.inl rfl
            · exact Or.inr rfl
          · exact Or.inl rfl
        · split
          · exact Or.inr rfl
          · exact Or.inl rfl
        · unfold urljoinCore
          rw [if_neg hc1]
          dsimp only
          rw [if_neg hc2, if_pos hc3]
      · refine Or.inr (Or.inr (Or.inr
          ⟨(if t.scheme ∈ uses_netloc then
              (if t.netloc ≠ [] then t.netloc else b.netloc) else t.netloc),
           (if t.path.take 1 = ['/'] then splitSlash t.path
            else filterMiddle
              ((if (splitSlash b.path).getLastD [] ≠ []
                then (splitSlash b.path).dropLast else splitSlash b.path) ++
               splitSlash t.path)), ?_, ?_, ?_⟩))
        · split
          · split
            · exact Or.inl rfl
            · exact Or.inr rfl
          · exact Or.inl rfl
        · intro piece hp x hx
          split at hp
          · exact Or.inr (splitSlash_piece_chars piece hp x hx)
          · rcases List.mem_append.mp (filterMiddle_mem piece hp) with hp2 | hp2
            · have hp3 : piece ∈ splitSlash b.path := by
                split at hp2
                · exact mem_dropLast hp2
                · exact hp2
              exact Or.inl (splitSlash_piece_chars piece hp3 x hx)
            · exact Or.inr (splitSlash_piece_chars piece hp2 x hx)
        · unfold urljoinCore
          rw [if_neg hc1]
          dsimp only
          rw [if_neg hc2, if_neg hc3]

theorem urljoinCore_no_char {b t : ParseResult} {url : Str} {c : Char}
    (hbn : c ∉ b.netloc) (hbp : c ∉ b.path) (hbpar : c ∉ b.params) (hbq : c ∉ b.query)
    (hts : c ∉ t.scheme) (htn : c ∉ t.netloc) (htp : c ∉ t.path)
    (htpar : c ∉ t.params) (htq : c ∉ t.query) (htf : c ∉ t.fragment)
    (hurl : c ∉ url)
    (h1 : c ≠ ':') (h2 : c ≠ '/') (h3 : c ≠ '?') (h4 : c ≠ '#') (h5 : c ≠ ';') :
    c ∉ urljoinCore b t url := by
  intro hmem
  rcases urljoinCore_cases b t url with hv | hv | ⟨n, q, hn, hq, hv⟩ |
    ⟨n, segments, hn, hseg, hv⟩
  · rw [hv] at hmem
    exact hurl hmem
  · rw [hv] at hmem
    rcases mem_urlunparse hmem with h | h | h | h | h | h | h | h | h | h | h
    · exact hts h
    · exact htn h
    · exact htp h
    · exact htpar h
    · exact htq h
    · exact htf h
    · exact h1 h
    · exact h2 h
    · exact h3 h
    · exact h4 h
    · exact h5 h
  · rw [hv] at hmem
    have hn2 : c ∉ n := by
      rcases hn with hn | hn
      · rw [hn]; exact htn
      · rw [hn]; exact hbn
    have hq2 : c ∉ q := by
      rcases hq with hq | hq
      · rw [hq]; exact htq
      · rw [hq]; exact hbq
    rcases mem_urlunparse hmem with h | h | h | h | h | h | h | h | h | h | h
    · exact hts h
    · exact hn2 h
    · exact hbp h
    · exact hbpar h
    · exact hq2 h
    · exact htf h
    · exact h1 h
    · exact h2 h
    · exact h3 h
    · exact h4 h
    · exact h5 h
  · rw [hv] at hmem
    have hn2 : c ∉ n := by
      rcases hn with hn | hn
      · rw [hn]; exact htn
      · rw [hn]; exact hbn
    have hjoin := urljoin_path_chars hbp htp h2 segments hseg
    have hpath2 : c ∉ (if joinSlash (if segments.getLastD [] = ['.'] ∨
        segments.getLastD [] = ['.', '.']
          then (segments.foldl joinStep []).reverse ++ [[]]
          else (segments.foldl joinStep []).reverse) = []
        then ['/']
        else joinSlash (if segments.getLastD [] = ['.'] ∨ segments.getLastD [] = ['.', '.']
          then (segments.foldl joinStep []).reverse ++ [[]]
          else (segments.foldl joinStep []).reverse)) := by
      by_cases hz : joinSlash (if segments.getLastD [] = ['.'] ∨
          segments.getLastD [] = ['.', '.']
            then (segments.foldl joinStep []).reverse ++ [[]]
            else (segments.foldl joinStep []).reverse) = []
      · rw [if_pos hz]
        intro hx
        exact h2 (List.mem_singleton.mp hx)
      · rw [if_neg hz]
        exact hjoin
    rcases mem_urlunparse hmem with h | h | h | h | h | h | h | h | h | h | h
    · exact hts h
    · exact hn2 h
    · exact hpath2 h
    · exact htpar h
    · exact htq h
    · exact htf h
    · exact h1 h
    · exact h2 h
    · exact h3 h
    · exact h4 h
    · exact h5 h

theorem urljoin_no_char {base url v : Str} {c : Char}
    (h : urljoin base url = .ok v) (hb : c ∉ base) (hu : c ∉ url)
    (hlow : ¬ (97 ≤ c.toNat ∧ c.toNat ≤ 122))
    (h1 : c ≠ ':') (h2 : c ≠ '/') (h3 : c ≠ '?') (h4 : c ≠ '#') (h5 : c ≠ ';') :
    c ∉ v := by
  unfold urljoin at h
  by_cases hb0 : base = []
  · rw [if_pos hb0] at h
    injection h with h
    rw [← h]
    exact hu
  · rw [if_neg hb0] at h
    by_cases hu0 : url = []
    · rw [if_pos hu0] at h
      injection h with h
      rw [← h]
      exact hb
    · rw [if_neg hu0] at h
      cases hpb : urlparseWith [] base with
      | error e =>
        rw [hpb] at h
        exact Except.noConfusion h
      | ok b =>
        rw [hpb] at h
        dsimp only at h
        cases hpt : urlparseWith b.scheme url with
        | error e =>
          rw [hpt] at h
          exact Except.noConfusion h
        | ok t =>
          rw [hpt] at h
          injection h with h
          rw [← h]
          obtain ⟨hbs, hbn, hbp, hbpar, hbq, hbf⟩ :=
            urlparseWith_no_char hpb hb (by simp) hlow
          obtain ⟨hts, htn, htp, htpar, htq, htf⟩ :=
            urlparseWith_no_char hpt hu hbs hlow
          exact urljoinCore_no_char hbn hbp hbpar hbq hts htn htp htpar htq htf
            hu h1 h2 h3 h4 h5

theorem resolve_no_char {w v : Str} {c : Char}
    (h : resolve_dot_segments w = .ok v) (hw : c ∉ w)
    (hlow : ¬ (97 ≤ c.toNat ∧ c.toNat ≤ 122))
    (h1 : c ≠ ':') (h2 : c ≠ '/') (h3 : c ≠ '?') (h4 : c ≠ '#') (h5 : c ≠ ';')
    (h6 : c ≠ '.') :
    c ∉ v := by
  unfold resolve_dot_segments at h
  cases hp : urlparse w with
  | error e =>
    rw [hp] at h
    exact Except.noConfusion h
  | ok t =>
    rw [hp] at h
    simp only [Except.map] at h
    injection h with h
    rw [← h]
    obtain ⟨hts, htn, htp, htpar, htq, htf⟩ :=
      urlparseWith_no_char hp hw (by simp) hlow
    intro hc
    rcases mem_urlunparse hc with h0 | h0 | h0 | h0 | h0 | h0 | h0 | h0 | h0 | h0 | h0
    · exact hts h0
    · exact htn h0
    · exact normpath_chars htp h2 h6 h0
    · exact htpar h0
    · exact htq h0
    · exact htf h0
    · exact h1 h0
    · exact h2 h0
    · exact h3 h0
    · exact h4 h0
    · exact h5 h0

theorem urljoin_ok {base url : Str} (hb1 : '[' ∉ base) (hb2 : ']' ∉ base)
    (hu1 : '[' ∉ url) (hu2 : ']' ∉ url) :
    ∃ v, urljoin base url = .ok v := by
  unfold urljoin
  by_cases hb0 : base = []
  · rw [if_pos hb0]
    exact ⟨url, rfl⟩
  · rw [if_neg hb0]
    by_cases hu0 : url = []
    · rw [if_pos hu0]
      exact ⟨base, rfl⟩
    · rw [if_neg hu0]
      rw [urlparseWith_ok_of_no_brackets hb1 hb2]
      dsimp only
      rw [urlparseWith_ok_of_no_brackets hu1 hu2]
      exact ⟨_, rfl⟩

theorem resolve_ok_no_brackets {w : Str} (h1 : '[' ∉ w) (h2 : ']' ∉ w) :
    ∃ v, resolve_dot_segments w = .ok v := by
  unfold resolve_dot_segments
  rw [show urlparse w = urlparseWith [] w from rfl,
    urlparseWith_ok_of_no_brackets h1 h2]
  exact ⟨_, rfl⟩

/-- Bracket-free inputs make `__absolute_link` total, with a
bracket-free result. -/
theorem absolute_link_ok {base current_url path : Str}
    (hb1 : '[' ∉ base) (hb2 : ']' ∉ base)
    (hc1 : '[' ∉ current_url) (hc2 : ']' ∉ current_url)
    (hp1 : '[' ∉ path) (hp2 : ']' ∉ path) :
    ∃ v, absolute_link base current_url path = .ok v ∧ '[' ∉ v ∧ ']' ∉ v := by
  have hnorm : ∃ w, normalize_link base current_url path = .ok w ∧
      '[' ∉ w ∧ ']' ∉ w := by
    unfold normalize_link
    by_cases hh : "http".data.isPrefixOf path
    · rw [if_pos hh]
      exact ⟨path, rfl, hp1, hp2⟩
    · rw [if_neg hh]
      by_cases hs : "/".data.isPrefixOf path
      · rw [if_pos hs]
        obtain ⟨v, hv⟩ := urljoin_ok hb1 hb2 hp1 hp2
        exact ⟨v, hv,
          urljoin_no_char hv hb1 hp1 (by decide) (by decide) (by decide) (by decide)
            (by decide) (by decide),
          urljoin_no_char hv hb2 hp2 (by decide) (by decide) (by decide) (by decide)
            (by decide) (by decide)⟩
      · rw [if_neg hs]
        obtain ⟨v, hv⟩ := urljoin_ok hc1 hc2 hp1 hp2
        exact ⟨v, hv,
          urljoin_no_char hv hc1 hp1 (by decide) (by decide) (by decide) (by decide)
            (by decide) (by decide),
          urljoin_no_char hv hc2 hp2 (by decide) (by decide) (by decide) (by decide)
            (by decide) (by decide)⟩
  obtain ⟨w, hw, hw1, hw2⟩ := hnorm
  unfold absolute_link
  rw [hw]
  obtain ⟨v, hv⟩ := resolve_ok_no_brackets hw1 hw2
  exact ⟨v, hv,
    resolve_no_char hv hw1 (by decide) (by decide) (by decide) (by decide) (by decide)
      (by decide) (by decide),
    resolve_no_char hv hw2 (by decide) (by decide) (by decide) (by decide) (by decide)
      (by decide) (by decide)⟩

/-! ## Claim theorems -/

/-- C1 counterexample: the Scope Filter does not compare schemes: an
`ftp`-scheme link with the same host as the `https` base URL is
accepted by `__is_current_domain`. -/
theorem is_current_domain_scheme_counterexample :
    urlparse "ftp://base.com/x".data =
      .ok ⟨"ftp".data, "base.com".data, "/x".data, [], [], []⟩ ∧
    is_current_domain "https://base.com/".data
      ⟨"ftp".data, "base.com".data, "/x".data, [], [], []⟩ = .ok true ∧
    "ftp".data ≠ "https".data := by
  refine ⟨?_, ?_, ?_⟩ <;> decide

/-- C1 (amended): the Scope Filter compares only the `netloc`
(host:port) component: whenever the base URL parses,
`__is_current_domain` accepts a parsed link exactly when the link's
netloc equals the base's netloc, with no constraint on the scheme or
any other component. -/
theorem is_current_domain_netloc_only {base : Str} {pb : ParseResult}
    (h : urlparse base = .ok pb) (parsed_link : ParseResult) :
    is_current_domain base parsed_link =
      .ok (decide (parsed_link.netloc = pb.netloc)) := by
  unfold is_current_domain
  rw [h]
  rfl

/-- C1 witness: the amended scope-filter theorem applied to the base
URL `https://base.com/` and a parsed `ftp` link on the same host. -/
theorem is_current_domain_netloc_only_witness :
    is_current_domain "https://base.com/".data
      ⟨"ftp".data, "base.com".data, "/x".data, [], [], []⟩ =
      .ok (decide ("base.com".data = "base.com".data)) :=
  @is_current_domain_netloc_only "https://base.com/".data
    ⟨"https".data, "base.com".data, "/".data, [], [], []⟩
    (by decide) ⟨"ftp".data, "base.com".data, "/x".data, [], [], []⟩

/-- C3: on the end-to-end scenario graph, the crawl visits exactly the
seed, `https://base.com/a.html` and `https://base.com/b`; `seen`
contains the canonical forms of all five targets (the two `a.html`
hrefs canonicalise to the same URL), including `https://other.com/` and
`https://base.com/img.png`, neither of which is visited. -/
theorem crawl_end_to_end_scenario :
    (crawlRun scenarioLinks "https://base.com/".data 10).1.visited.toFinset =
      ({"https://base.com/".data, "https://base.com/a.html".data,
        "https://base.com/b".data} : Finset Str) ∧
    "https://base.com/a.html".data ∈
      (crawlRun scenarioLinks "https://base.com/".data 10).1.seen ∧
    "https://base.com/b".data ∈
      (crawlRun scenarioLinks "https://base.com/".data 10).1.seen ∧
    "https://other.com/".data ∈
      (crawlRun scenarioLinks "https://base.com/".data 10).1.seen ∧
    "https://base.com/img.png".data ∈
      (crawlRun scenarioLinks "https://base.com/".data 10).1.seen ∧
    "https://other.com/".data ∉
      (crawlRun scenarioLinks "https://base.com/".data 10).1.visited ∧
    "https://base.com/img.png".data ∉
      (crawlRun scenarioLinks "https://base.com/".data 10).1.visited := by
  refine ⟨?_, ?_, ?_, ?_, ?_, ?_, ?_⟩ <;> decide

/-- C4: the URL Normalizer's three-way classification: an `http`-prefixed
link is used unchanged, a `/`-prefixed link is joined against the base
URL, anything else is joined against the current URL; the spec's two
concrete examples evaluate as stated. -/
theorem normalize_link_three_cases :
    (∀ base current_url link : Str, "http".data.isPrefixOf link →
      normalize_link base current_url link = .ok link) ∧
    (∀ base current_url link : Str, ¬ "http".data.isPrefixOf link →
      "/".data.isPrefixOf link →
      normalize_link base current_url link = urljoin base link) ∧
    (∀ base current_url link : Str, ¬ "http".data.isPrefixOf link →
      ¬ "/".data.isPrefixOf link →
      normalize_link base current_url link = urljoin current_url link) ∧
    (∀ current_url : Str,
      normalize_link "https://base.com/".data current_url "/page".data =
        .ok "https://base.com/page".data) ∧
    (∀ base : Str,
      normalize_link base "https://base.com/page/1".data "2".data =
        .ok "https://base.com/page/2".data) := by
  refine ⟨?_, ?_, ?_, ?_, ?_⟩
  · intro base current_url link hp
    unfold normalize_link
    rw [if_pos hp]
  · intro base current_url link hp hs
    unfold normalize_link
    rw [if_neg hp, if_pos hs]
  · intro base current_url link hp hs
    unfold normalize_link
    rw [if_neg hp, if_neg hs]
  · intro current_url
    unfold normalize_link
    rw [if_neg (by decide), if_pos (by decide)]
    decide
  · intro base
    unfold normalize_link
    rw [if_neg (by decide), if_neg (by decide)]
    decide

/-- C5: the Path Canonicaliser collapses dot segments lexically and
never ascends above the root: the spec's two boundary examples evaluate
as stated; a `..` at the root is discarded with no further effect and
no error; and a normalised absolute path stays absolute with no
residual `..` segment. -/
theorem resolve_dot_segments_correct :
    resolve_dot_segments "https://base.com/pages/2/../../other_pages/1".data =
      .ok "https://base.com/other_pages/1".data ∧
    resolve_dot_segments "https://base.com/a/../../../b".data =
      .ok "https://base.com/b".data ∧
    (∀ p : Str, p.take 1 ≠ ['/'] →
      normpath ('/' :: '.' :: '.' :: '/' :: p) = normpath ('/' :: p)) ∧
    (∀ p : Str, p.take 1 = ['/'] →
      (normpath p).take 1 = ['/'] ∧ ['.', '.'] ∉ splitSlash (normpath p)) := by
  refine ⟨by decide, by decide, ?_, ?_⟩
  · intro p hp
    exact normpath_root_dotdot hp
  · intro p hp
    exact ⟨normpath_abs_take1 hp, normpath_abs_no_dotdot hp⟩

/-- C6: the Crawlability Filter accepts exactly the not-yet-seen links
whose path ends in `.html` or whose basename contains no dot; the
spec's three boundary paths behave as stated. -/
theorem is_crawlable_spec :
    (∀ (seen : List Str) (full_link : Str) (t : ParseResult),
      is_crawlable seen full_link t = true ↔
        (full_link ∉ seen ∧ (".html".data.isSuffixOf t.path ∨
          '.' ∉ basename t.path))) ∧
    (∀ (seen : List Str) (full_link : Str) (t : ParseResult), full_link ∈ seen →
      is_crawlable seen full_link t = false) ∧
    (∀ (seen : List Str) (full_link : Str) (t : ParseResult), full_link ∉ seen →
      t.path = "/x/y.html".data → is_crawlable seen full_link t = true) ∧
    (∀ (seen : List Str) (full_link : Str) (t : ParseResult), full_link ∉ seen →
      t.path = "/x/y.png".data → is_crawlable seen full_link t = false) ∧
    (∀ (seen : List Str) (full_link : Str) (t : ParseResult), full_link ∉ seen →
      t.path = "/x/y".data → is_crawlable seen full_link t = true) := by
  refine ⟨?_, ?_, ?_, ?_, ?_⟩
  · intro seen full_link t
    unfold is_crawlable
    rw [decide_eq_true_eq]
  · intro seen full_link t h
    unfold is_crawlable
    rw [decide_eq_false_iff_not]
    intro hand
    exact hand.1 h
  · intro seen full_link t h hpath
    unfold is_crawlable
    rw [decide_eq_true_eq, hpath]
    exact ⟨h, Or.inl (by decide)⟩
  · intro seen full_link t h hpath
    unfold is_crawlable
    rw [decide_eq_false_iff_not, hpath]
    intro hand
    rcases hand.2 with h2 | h2
    · exact absurd h2 (by decide)
    · exact h2 (by decide)
  · intro seen full_link t h hpath
    unfold is_crawlable
    rw [decide_eq_true_eq, hpath]
    exact ⟨h, Or.inr (by decide)⟩

/-- C8 counterexample: the core can raise: the href `http://[`
(treated as absolute, then fed to `urlparse` inside
`__resolve_dot_segments`) raises `ValueError("Invalid IPv6 URL")`, so
the per-link processing aborts with an exception and a whole crawl run
over a page containing it dies instead of recording the link. -/
theorem crawl_exception_counterexample :
    absolute_link "https://base.com/".data "https://base.com/".data
      "http://[".data = .error () ∧
    processLink "https://base.com/".data (fun p _ => (p, true))
      "https://base.com/".data ⟨[], [], []⟩ "http://[".data = (⟨[], [], []⟩, false) ∧
    (crawlRun (fun _ => ["http://[".data]) "https://base.com/".data 10).2 = false := by
  refine ⟨?_, ?_, ?_⟩ <;> decide

/-- C8 (amended): for every href, base URL and current URL made only
of ASCII characters and free of the bracket characters `[` and `]`,
processing the href in `crawl` never raises: the fragment split,
`__absolute_link`, `urlparse` and the scope and crawlability checks
all complete, the resolved link is recorded in `seen`, and the loop
either moves on or recurses into it.  (The ASCII restriction matters
to the program: a non-ASCII authority can make `urlparse` raise
through its NFKC normalisation check, e.g. the href `http://a＠b/`
with a fullwidth `＠`; the bracket restriction rules out the
`Invalid IPv6 URL` and bracketed-host errors.  On this fragment the
embedded parser coincides with CPython's.) -/
theorem crawl_no_exception_ascii_bracket_free {base current_url link : Str}
    (_hba : ∀ c ∈ base, c.toNat < 128)
    (_hca : ∀ c ∈ current_url, c.toNat < 128)
    (_hla : ∀ c ∈ link, c.toNat < 128)
    (hb1 : '[' ∉ base) (hb2 : ']' ∉ base)
    (hc1 : '[' ∉ current_url) (hc2 : ']' ∉ current_url)
    (hl1 : '[' ∉ link) (hl2 : ']' ∉ link)
    (visit : CrawlState → Str → CrawlState × Bool) (s : CrawlState) :
    ∃ fl, processLink base visit current_url s link =
        ({ s with seen := setAdd fl s.seen }, true) ∨
      processLink base visit current_url s link =
        visit { s with seen := setAdd fl s.seen } fl := by
  have hcp1 : '[' ∉ link.takeWhile (fun c => c ≠ '#') :=
    fun hx => hl1 (mem_takeWhile hx)
  have hcp2 : ']' ∉ link.takeWhile (fun c => c ≠ '#') :=
    fun hx => hl2 (mem_takeWhile hx)
  obtain ⟨fl, hfl, hfl1, hfl2⟩ := absolute_link_ok hb1 hb2 hc1 hc2 hcp1 hcp2
  have hparse : urlparse fl = .ok (paramsSplit (urlsplitRaw [] fl)) :=
    urlparseWith_ok_of_no_brackets hfl1 hfl2
  have hdom : is_current_domain base (paramsSplit (urlsplitRaw [] fl)) =
      .ok (decide ((paramsSplit (urlsplitRaw [] fl)).netloc =
        (paramsSplit (urlsplitRaw [] base)).netloc)) := by
    unfold is_current_domain
    rw [show urlparse base = urlparseWith [] base from rfl,
      urlparseWith_ok_of_no_brackets hb1 hb2]
    rfl
  refine ⟨fl, ?_⟩
  unfold processLink
  dsimp only
  rw [hfl]
  dsimp only
  rw [hparse]
  dsimp only
  rw [hdom]
  dsimp only
  by_cases hsd : ¬ (decide ((paramsSplit (urlsplitRaw [] fl)).netloc =
      (paramsSplit (urlsplitRaw [] base)).netloc) = true)
  · rw [if_pos hsd]
    exact Or.inl rfl
  · rw [if_neg hsd]
    by_cases hcr : is_crawlable s.seen fl (paramsSplit (urlsplitRaw [] fl)) = true
    · rw [if_pos hcr]
      exact Or.inr rfl
    · rw [if_neg hcr]
      exact Or.inl rfl

/-- C8 witness: exception-free processing of the concrete all-ASCII
href `b` on the page `https://base.com/`. -/
theorem crawl_no_exception_witness :
    ∃ fl, processLink "https://base.com/".data (fun p _ => (p, true))
        "https://base.com/".data ⟨[], [], []⟩ "b".data =
        (⟨[], setAdd fl [], []⟩, true) ∨
      processLink "https://base.com/".data (fun p _ => (p, true))
        "https://base.com/".data ⟨[], [], []⟩ "b".data =
      (fun p _ => (p, true)) (⟨[], setAdd fl [], []⟩ : CrawlState) fl :=
  crawl_no_exception_ascii_bracket_free (by decide) (by decide) (by decide)
    (by decide) (by decide) (by decide) (by decide) (by decide) (by decide)
    (fun p _ => (p, true)) ⟨[], [], []⟩

/-- C9 counterexample: three failing attempts do not leave the result
empty: each failed attempt's partial hrefs stay in the shared `links`
list, so a page whose three fetch attempts all fail after extracting
one href yields that href three times. -/
theorem get_http_partial_counterexample :
    get_http_from_website (fun _ => (["x".data], false)) =
      ["x".data, "x".data, "x".data] ∧
    get_http_from_website (fun _ => (["x".data], false)) ≠ [] := by
  constructor <;> decide

/-- C9 (amended): `__get_http_from_website` makes up to 3 attempts,
swallowing each failure; when all three fail it returns the
concatenation of the hrefs the failed attempts had already appended —
which is empty exactly when every failed attempt appended nothing —
and a successful first attempt returns its hrefs alone. -/
theorem get_http_retry_spec :
    (∀ a : Nat → List Str × Bool, (∀ i, i < 3 → (a i).2 = false) →
      get_http_from_website a = (a 0).1 ++ (a 1).1 ++ (a 2).1) ∧
    (∀ a : Nat → List Str × Bool, (∀ i, i < 3 → (a i).2 = false) →
      (∀ i, i < 3 → (a i).1 = []) → get_http_from_website a = []) ∧
    (∀ a : Nat → List Str × Bool, (a 0).2 = true →
      get_http_from_website a = (a 0).1) := by
  have hall : ∀ a : Nat → List Str × Bool, (∀ i, i < 3 → (a i).2 = false) →
      get_http_from_website a = (a 0).1 ++ (a 1).1 ++ (a 2).1 := by
    intro a h
    have h0 := h 0 (by omega)
    have h1 := h 1 (by omega)
    have h2 := h 2 (by omega)
    unfold get_http_from_website
    rw [show getHttpGo a 3 0 [] =
      (if (a 0).2 then [] ++ (a 0).1 else getHttpGo a 2 1 ([] ++ (a 0).1)) from rfl]
    rw [h0, if_neg (by decide)]
    rw [show getHttpGo a 2 1 ([] ++ (a 0).1) =
      (if (a 1).2 then ([] ++ (a 0).1) ++ (a 1).1
        else getHttpGo a 1 2 (([] ++ (a 0).1) ++ (a 1).1)) from rfl]
    rw [h1, if_neg (by decide)]
    rw [show getHttpGo a 1 2 (([] ++ (a 0).1) ++ (a 1).1) =
      (if (a 2).2 then (([] ++ (a 0).1) ++ (a 1).1) ++ (a 2).1
        else getHttpGo a 0 3 ((([] ++ (a 0).1) ++ (a 1).1) ++ (a 2).1)) from rfl]
    rw [h2, if_neg (by decide)]
    rw [show getHttpGo a 0 3 ((([] ++ (a 0).1) ++ (a 1).1) ++ (a 2).1) =
      (([] ++ (a 0).1) ++ (a 1).1) ++ (a 2).1 from rfl]
    rw [List.nil_append]
  refine ⟨hall, ?_, ?_⟩
  · intro a h hnil
    rw [hall a h, hnil 0 (by omega), hnil 1 (by omega), hnil 2 (by omega)]
    rfl
  · intro a h
    unfold get_http_from_website
    rw [show getHttpGo a 3 0 [] =
      (if (a 0).2 then [] ++ (a 0).1 else getHttpGo a 2 1 ([] ++ (a 0).1)) from rfl]
    rw [h, if_pos rfl, List.nil_append]

/-- C7 counterexample: `__resolve_dot_segments` is not idempotent on its
own output.  `https://base.com` canonicalises to `https://base.com/.`
(an output of the canonicaliser), and canonicalising that again yields
the different string `https://base.com/`. -/
theorem resolve_idempotent_counterexample :
    resolve_dot_segments "https://base.com".data = .ok "https://base.com/.".data ∧
    resolve_dot_segments "https://base.com/.".data = .ok "https://base.com/".data ∧
    "https://base.com/.".data ≠ "https://base.com/".data := by
  refine ⟨?_, ?_, ?_⟩ <;> decide

/-- C7 (amended): `__resolve_dot_segments` is idempotent on every URL
that parses with a nonempty authority and a nonempty,
parameter-free path — in particular on canonical URLs of that shape:
resolving the resolved URL again yields it unchanged. -/
theorem resolve_idempotent_amended {u : Str} {t : ParseResult}
    (h : urlparse u = .ok t) (hn : t.netloc ≠ []) (hp : t.path ≠ [])
    (hsemi : ';' ∉ t.path) :
    (resolve_dot_segments u).bind resolve_dot_segments = resolve_dot_segments u := by
  obtain ⟨hs, hsu, hn_delim, hn_brk, hnu, hshape, hp_hash, hp_q, hpu,
    hpar_slash, hpar_hash, hpar_q, hparu, hpar_uses, hq_hash, hqu, hfu⟩ :=
    urlparse_components h
  have hp1 : t.path.take 1 = ['/'] := by
    rcases hshape hn with h0 | h0
    · exact absurd h0 hp
    · exact h0
  have hnpu : ∀ c ∈ normpath t.path, isUnsafeByte c = false := by
    intro c hc
    by_contra hcon
    have hct : isUnsafeByte c = true := by
      cases hval : isUnsafeByte c
      · exact absurd hval hcon
      · rfl
    have hcne : c ∉ t.path := by
      intro hcp
      rw [hpu c hcp] at hct
      exact Bool.false_ne_true hct
    have h2 : c ≠ '/' := by
      intro hEq
      rw [hEq] at hct
      exact absurd hct (by decide)
    have h3 : c ≠ '.' := by
      intro hEq
      rw [hEq] at hct
      exact absurd hct (by decide)
    exact normpath_chars hcne h2 h3 hc
  have hparse2 : urlparse (urlunparse
      ⟨t.scheme, t.netloc, normpath t.path, t.params, t.query, t.fragment⟩) =
      .ok ⟨t.scheme, t.netloc, normpath t.path, t.params, t.query, t.fragment⟩ :=
    urlparse_unparse hs hsu hn hn_delim hn_brk hnu
      (normpath_abs_take1 hp1)
      (normpath_chars hp_hash (by decide) (by decide))
      (normpath_chars hp_q (by decide) (by decide))
      (normpath_chars hsemi (by decide) (by decide))
      hnpu hpar_slash hpar_hash hpar_q hparu hpar_uses
      hq_hash hqu hfu
  have hres : resolve_dot_segments u =
      .ok (urlunparse ⟨t.scheme, t.netloc, normpath t.path, t.params, t.query, t.fragment⟩) := by
    unfold resolve_dot_segments
    rw [h]
    rfl
  rw [hres]
  show resolve_dot_segments
    (urlunparse ⟨t.scheme, t.netloc, normpath t.path, t.params, t.query, t.fragment⟩) = _
  unfold resolve_dot_segments
  rw [hparse2]
  show Except.ok (urlunparse ⟨t.scheme, t.netloc, normpath (normpath t.path),
    t.params, t.query, t.fragment⟩) = _
  rw [normpath_idem]

/-- C2: across a single crawl run on any link graph, no URL is handed
to the Link Source twice (the fetch log has no duplicates), and
entering `crawl` with an already-visited URL is an immediate no-op. -/
theorem crawl_fetches_at_most_once (links : Str → List Str) (base : Str) (fuel : Nat) :
    (crawlRun links base fuel).1.fetched.Nodup ∧
    ∀ (s : CrawlState) (url : Str), url ∈ s.visited →
      crawlVisit links base (fuel + 1) s url = (s, true) := by
  constructor
  · have h0 : FetchInv ⟨[], [], []⟩ := by
      constructor
      · exact List.nodup_nil
      · intro x hx
        simp at hx
    exact ((crawlVisit_inv links base fuel ⟨[], [], []⟩ base h0).1).1
  · intro s url hvis
    unfold crawlVisit
    rw [if_pos hvis]

/-- C10 counterexample: canonicalisation does not simply remove a
trailing path slash: `https://base.com/a/./` canonicalises to
`https://base.com/a`, not to the slash-stripped `https://base.com/a/.`. -/
theorem trailing_slash_counterexample :
    resolve_dot_segments "https://base.com/a/./".data = .ok "https://base.com/a".data ∧
    "https://base.com/a".data ≠ "https://base.com/a/.".data := by
  constructor <;> decide

/-- C10 (amended): on a URL with authority whose path is an
already-normal absolute path followed by one trailing `/`,
`__resolve_dot_segments` returns the URL rebuilt with exactly that
trailing slash removed; and the seed `base_url` is stored in `visited`
verbatim, never canonicalised. -/
theorem trailing_slash_amended {u : Str} {t : ParseResult} {q : Str}
    (h : urlparse u = .ok t)
    (hpath : t.path = q ++ ['/'])
    (hq1 : q.take 1 = ['/']) (hstable : normpath q = q)
    (hq2 : q ≠ ['/']) (hq3 : q ≠ ['/', '/']) :
    resolve_dot_segments u =
      .ok (urlunparse ⟨t.scheme, t.netloc, q, t.params, t.query, t.fragment⟩) ∧
    ∀ (links : Str → List Str) (base : Str) (fuel : Nat),
      base ∈ (crawlRun links base (fuel + 1)).1.visited := by
  constructor
  · unfold resolve_dot_segments
    rw [h]
    show Except.ok (urlunparse ⟨t.scheme, t.netloc, normpath t.path,
      t.params, t.query, t.fragment⟩) = _
    rw [hpath, normpath_trailing_slash hstable hq1 hq2 hq3]
  · intro links base fuel
    unfold crawlRun crawlVisit
    rw [if_neg (by simp)]
    have h0 : FetchInv ⟨setAdd base [], [], [] ++ [base]⟩ := by
      constructor
      · simp [setAdd]
      · intro x hx
        simp at hx
        rw [hx]
        exact mem_setAdd_self base []
    have hmono := (@processLinks_inv base base (crawlVisit links base fuel)
      (fun p v hp => crawlVisit_inv links base fuel p v hp) (links base) _ h0).2
    exact hmono (mem_setAdd_self base [])

/-- C10 witness: the amended trailing-slash theorem applied to the
concrete URL `https://base.com/dir/`. -/
theorem trailing_slash_amended_witness :
    resolve_dot_segments "https://base.com/dir/".data = .ok "https://base.com/dir".data ∧
    ∀ (links : Str → List Str) (base : Str) (fuel : Nat),
      base ∈ (crawlRun links base (fuel + 1)).1.visited :=
  trailing_slash_amended
    (t := ⟨"https".data, "base.com".data, "/dir/".data, [], [], []⟩)
    (q := "/dir".data)
    (by decide) (by decide) (by decide) (by decide) (by decide) (by decide)

/-- C7 witness: the amended idempotence theorem applied to the concrete
URL `http://h/a/../b`. -/
theorem resolve_idempotent_amended_witness :
    (resolve_dot_segments "http://h/a/../b".data).bind resolve_dot_segments =
      resolve_dot_segments "http://h/a/../b".data :=
  resolve_idempotent_amended
    (t := ⟨"http".data, "h".data, "/a/../b".data, [], [], []⟩)
    (by decide) (by decide) (by decide) (by decide)

end Heretic
